import Mathlib

/-!
Shallow embedding of `src/table.py` (CopOnTheRun/TableThingy).

Python strings are modelled as `List Char` (`Str`), one entry per code
point, which matches Python's `len` and indexing.  The model's
`splitlines` treats `'\n'` as the only line-break character; the Python
original also splits on rarer break characters (`'\r'`, `'\x0b'`, …), so
theorems whose truth depends on line structure carry a hypothesis that
inputs use no such characters where that matters.  Alignment ratios are
Python floats used at values like 0, 0.5, 1; they are modelled as `ℚ`,
on which Python's `math.floor` is exact `Int.floor`.  Exceptions
(`ValueError` from `max([])`, `IndexError` from `cells[0]`,
`StopIteration`/`RuntimeError` from an exhausted line iterator) are
modelled by `Option`: `none` means the corresponding Python call raises.
-/

namespace TableThingy

/-- A Python string: a list of code points. -/
abbrev Str := List Char

/-- Python `n * fill` for `n : int` possibly negative and a one-character
`fill`: a negative count yields the empty string. -/
def repInt (n : Int) (c : Char) : Str :=
  List.replicate n.toNat c

/-- `table.py` lines 9-15, `h_pad(text, width, align, fill)`:
`padding = width - len(text)`, `lpad = floor(align*padding)`,
`rpad = padding - lpad`, returning `lpad*fill + text + rpad*fill + "\n"`. -/
def h_pad (text : Str) (width : Nat) (align : ℚ) (fill : Char) : Str :=
  let padding : Int := (width : Int) - (text.length : Int)
  let lpad : Int := Int.floor (align * (padding : ℚ))
  let rpad : Int := padding - lpad
  repInt lpad fill ++ text ++ repInt rpad fill ++ ['\n']

/-- Python `str.splitlines()` restricted to `'\n'` breaks: cuts at every
newline and drops a final empty piece left by a trailing newline, so
`"" ↦ []`, `"a\n" ↦ ["a"]`, `"a\nb" ↦ ["a", "b"]`, `"\n" ↦ [""]`. -/
def splitlines : Str → List Str
  | [] => []
  | c :: cs =>
    if c = '\n' then [] :: splitlines cs
    else
      match splitlines cs with
      | [] => [[c]]
      | l :: ls => (c :: l) :: ls

/-- Python `max(strings, key=len)` on a nonempty list: the first string of
maximal length (`max` keeps the current item unless a later key is
strictly greater). -/
def pymaxByLen (x : Str) (xs : List Str) : Str :=
  xs.foldl (fun acc l => if acc.length < l.length then l else acc) x

/-- `table.py` lines 34-61, `Content`: wraps `str(value)`.  The model
takes the string representation itself as the payload. -/
structure Content where
  text : Str
deriving DecidableEq, Repr

/-- `Content.get_width` (lines 41-44): `len(max(text.splitlines(), key=len))`,
or `0` when there are no lines. -/
def Content.get_width (c : Content) : Nat :=
  match splitlines c.text with
  | [] => 0
  | l :: ls => (pymaxByLen l ls).length

/-- `Content.get_height` (lines 46-48): `text.count("\n") + 1 if text else 0`. -/
def Content.get_height (c : Content) : Nat :=
  if c.text = [] then 0 else c.text.count '\n' + 1

/-- `Content.__str__` (lines 55-61): each line of the payload passed
through `h_pad(line, self.width, align=0)` (fill defaults to a space)
and concatenated. -/
def Content.str (c : Content) : Str :=
  ((splitlines c.text).map (fun l => h_pad l c.get_width 0 ' ')).flatten

/-- `table.py` lines 63-77, `CellFormat`: alignment ratios and fill glyph.
Defaults are `v_align = h_align = 0.5`, fill = a space. -/
structure CellFormat where
  v_align : ℚ := 1/2
  h_align : ℚ := 1/2
  fill : Char := ' '
deriving DecidableEq, Repr

/-- `CellFormat.__post_init__` (lines 71-77): raises `ValueError` unless
both ratios lie in `[0, 1]`.  Construction-with-validation is modelled as
a function returning `none` exactly when Python raises. -/
def mkCellFormat (v h : ℚ) (fill : Char) : Option CellFormat :=
  if (0 ≤ v ∧ v ≤ 1) ∧ (0 ≤ h ∧ h ≤ 1) then some ⟨v, h, fill⟩ else none

/-- `table.py` lines 79-106, `Cell`: content with a target box and format. -/
structure Cell where
  content : Content
  height : Nat
  width : Nat
  fmt : CellFormat := {}
deriving DecidableEq, Repr

/-- Start of `Cell.print_range` (lines 90-95):
`floor((self.height - self.content.height) * v_align)`. -/
def Cell.print_start (c : Cell) : Int :=
  Int.floor (((c.height : ℚ) - (c.content.get_height : ℚ)) * c.fmt.v_align)

/-- End of `Cell.print_range`: `start + self.content.height`. -/
def Cell.print_stop (c : Cell) : Int :=
  c.print_start + (c.content.get_height : Int)

/-- The loop of `Cell.__str__` (lines 97-106): for each output row `x`,
if `x` is in `print_range` the next line is drawn from the content
iterator (`none` models the `StopIteration` of an exhausted iterator),
otherwise the row is `h_pad("")`; each row is `h_pad`-ded to the cell
width. -/
def cellLoop (s e : Int) (w : Nat) (hA : ℚ) (f : Char) :
    List Nat → List Str → Option Str
  | [], _ => some []
  | x :: xs, rem =>
    if s ≤ (x : Int) ∧ (x : Int) < e then
      match rem with
      | [] => none
      | l :: ls => (cellLoop s e w hA f xs ls).map (fun t => h_pad l w hA f ++ t)
    else
      (cellLoop s e w hA f xs rem).map (fun t => h_pad [] w hA f ++ t)

/-- `Cell.__str__` (lines 97-106).  The content iterator is
`line_iter(self.content)`, i.e. the lines of `str(self.content)` — the
lines *after* `Content.__str__` has right-padded each one to the
content's width. -/
def Cell.str (c : Cell) : Option Str :=
  cellLoop c.print_start c.print_stop c.width c.fmt.h_align c.fmt.fill
    (List.range c.height) (splitlines c.content.str)

/-- A step-free Python `slice(start, stop)`.  Every slice in `table.py`
(`slice(None)` and the documented `slice(1, -1)`) has no step. -/
structure PySlice where
  start : Option Int := none
  stop : Option Int := none
deriving DecidableEq, Repr

/-- Python `slice.indices(n)` for a step-free slice: `None` defaults to
`0`/`n`; a negative index counts from the end clamped at `0`; a
nonnegative index is clamped at `n`. -/
def PySlice.norm (sl : PySlice) (n : Nat) : Nat × Nat :=
  let clamp : Int → Nat := fun i => if i < 0 then ((n : Int) + i).toNat else min i.toNat n
  (match sl.start with
   | Option.none => 0
   | some i => clamp i,
   match sl.stop with
   | Option.none => n
   | some i => clamp i)

/-- `table.py` lines 127-151, `Divider`: glyph, active-span slice,
default glyph.  Glyphs are single characters, as in every divider the
source constructs. -/
structure Divider where
  char : Char
  slices : PySlice := {}
  default : Char := ' '
deriving DecidableEq, Repr

/-- `Divider.chars(length)` (lines 141-145): a list of `length` glyphs,
the slice-selected positions carrying `char` and the rest `default`.
(The Python builds a `default` list and slice-assigns `char*k` over the
`k` selected positions, which for a one-character `char` replaces exactly
those positions.) -/
def Divider.chars (d : Divider) (length : Nat) : List Char :=
  let se := d.slices.norm length
  (List.range length).map (fun i => if se.1 ≤ i ∧ i < se.2 then d.char else d.default)

/-- `Divider.horizontal()` (line 148). -/
def Divider.horizontal : Divider := ⟨'─', {}, ' '⟩

/-- `Divider.vertical()` (line 151). -/
def Divider.vertical : Divider := ⟨'│', {}, ' '⟩

/-- `table.py` lines 153-171, `JointChars` (left cap, interior junction,
right cap).  The `none()`/`no_border()` constructors, which use empty
strings and are unused by the rendering path, are not modelled. -/
structure JointChars where
  left : Char
  mid : Char
  right : Char
deriving DecidableEq, Repr

/-- `JointChars.top()`. -/
def JointChars.top : JointChars := ⟨'┌', '┬', '┐'⟩

/-- `JointChars.center()`. -/
def JointChars.center : JointChars := ⟨'├', '┼', '┤'⟩

/-- `JointChars.bottom()`. -/
def JointChars.bottom : JointChars := ⟨'└', '┴', '┘'⟩

/-- `table.py` lines 173-211, `TableDecoration` with its defaults. -/
structure TableDecoration where
  top_bord : JointChars := JointChars.top
  mid_bord : JointChars := JointChars.center
  bot_bord : JointChars := JointChars.bottom
  h_div : Divider := Divider.horizontal
  v_div : Divider := Divider.vertical
deriving DecidableEq, Repr

/-- `TableDecoration.char_return(tup, none)` (lines 182-192): Python's
`glyph in (x, y)` is `x = glyph ∨ y = glyph`. -/
def TableDecoration.char_return (t : TableDecoration) (x y : Char) (nch : Char) : Char :=
  if (x = t.h_div.char ∨ y = t.h_div.char) ∧ (x = t.v_div.char ∨ y = t.v_div.char) then
    t.mid_bord.mid
  else if x = t.h_div.char ∨ y = t.h_div.char then t.h_div.char
  else if x = t.v_div.char ∨ y = t.v_div.char then t.v_div.char
  else nch

/-- `TableDecoration.joints(height, width)` (lines 194-198). -/
def TableDecoration.joints (t : TableDecoration) (height width : Nat) : List (List Char) :=
  (t.h_div.chars height).map (fun x =>
    (t.v_div.chars width).map (fun y => t.char_return x y ' '))

/-- `iter_join(iter1, iter2)` (lines 21-32): interleave two string lists,
the longer one's tail appended unpaired (`zip_longest` with `""` fill). -/
def iter_join : List Str → List Str → Str
  | [], ys => ys.flatten
  | x :: xs, [] => x ++ iter_join xs []
  | x :: xs, y :: ys => x ++ y ++ iter_join xs ys

/-- `TableDecoration.div_lines(widths, tab_length)` (lines 200-211): one
line per interior row boundary; each is the per-column runs of that
tier's glyph joined by the tier's junction row, plus a newline.  The
Python pulls the tier glyph from `iter(h_div.chars(tab_length-1))` while
looping over `joints`, whose rows come from the same `chars` call, so the
two lists have equal length and the pairing is an exact `zip`. -/
def TableDecoration.div_lines (t : TableDecoration) (widths : List Nat)
    (tab_length : Nat) : List Str :=
  let h_chars := t.h_div.chars (tab_length - 1)
  let js := t.joints (tab_length - 1) (widths.length - 1)
  (List.zip h_chars js).map (fun p =>
    iter_join (widths.map (fun w => List.replicate w p.1)) (p.2.map (fun c => [c])) ++ ['\n'])

/-- `table.py` lines 108-125, `Row`: cells plus the vertical divider. -/
structure Row where
  cells : List Cell
  v_div : Divider
deriving DecidableEq, Repr

/-- `str(cell)` for each cell in order; `none` if any raises. -/
def cellStrs : List Cell → Option (List Str)
  | [] => some []
  | c :: cs =>
    match Cell.str c, cellStrs cs with
    | some s, some t => some (s :: t)
    | _, _ => Option.none

/-- One `next` from each line iterator; `none` models the exception an
exhausted iterator raises inside the row loop. -/
def takeHeads : List (List Str) → Option (List Str × List (List Str))
  | [] => some ([], [])
  | [] :: _ => Option.none
  | (l :: ls) :: rest => (takeHeads rest).map (fun p => (l :: p.1, ls :: p.2))

/-- The loop of `Row.__str__` (lines 122-124): `cells[0].height` times,
join the cells' next lines with the divider glyphs and a newline. -/
def rowLoop (chars : List Str) : Nat → List (List Str) → Option Str
  | 0, _ => some []
  | n + 1, its =>
    (takeHeads its).bind
      (fun p => (rowLoop chars n p.2).map (fun s => iter_join p.1 chars ++ ['\n'] ++ s))

/-- `Row.__str__` (lines 116-125): `none` when `cells` is empty
(`cells[0]` raises `IndexError`) or a cell's rendering raises.  The
Python consumes `str(cell)` lazily inside the loop; within the pipeline
every cell of a row shares the row's height, so the eager order used
here raises in exactly the same cases. -/
def Row.str (r : Row) : Option Str :=
  match r.cells.head? with
  | Option.none => Option.none
  | some c0 =>
    match cellStrs r.cells with
    | Option.none => Option.none
    | some strs =>
      rowLoop ((r.v_div.chars (r.cells.length - 1)).map (fun c => [c]))
        c0.height (strs.map splitlines)

/-- `Table.get_content` (lines 223-224), on already-stringified values. -/
def get_content (data : List (List Str)) : List (List Content) :=
  data.map (fun row => row.map Content.mk)

/-- `Table.get_row_heights` (lines 226-228): `max` of each row's content
heights.  Python's `max([])` on an empty row raises `ValueError`,
modelled by `none`. -/
def get_row_heights : List (List Content) → Option (List Nat)
  | [] => some []
  | row :: rest =>
    match row.map Content.get_height with
    | [] => Option.none
    | h :: hs =>
      match get_row_heights rest with
      | Option.none => Option.none
      | some t => some (hs.foldl max h :: t)

/-- One row's pass of `Table.get_col_widths` (lines 230-237): the
`defaultdict` keeps `widths[col] = max(widths[col], w)` with missing keys
read as `0`, and since each row enumerates columns `0, 1, …` in order the
dict's keys are always `0 … n-1` in insertion order, so the dict is
exactly a left-extended pointwise-max list. -/
def row_upd : List Nat → List Nat → List Nat
  | ws, [] => ws
  | [], w :: rest => w :: row_upd [] rest
  | v :: vs, w :: rest => max v w :: row_upd vs rest

/-- `Table.get_col_widths` (lines 230-237). -/
def get_col_widths (contents : List (List Content)) : List Nat :=
  contents.foldl (fun ws row => row_upd ws (row.map Content.get_width)) []

/-- The cell build of `Table.get_rows` (lines 250-252):
`zip_longest(col_widths, row, fillvalue=Content(""))` pairs each column
width with the row's content, padding a short row with empty `Content`.
Within the pipeline a row is never longer than `col_widths`
(`get_col_widths` covers every column of every row), so the branch in
which Python would pair a `Content` fill value as a width is modelled as
producing nothing. -/
def build_cells (height : Nat) : List Nat → List Content → List Cell
  | [], _ => []
  | w :: ws, [] => Cell.mk (Content.mk []) height w {} :: build_cells height ws []
  | w :: ws, c :: cs => Cell.mk c height w {} :: build_cells height ws cs

/-- `Table.get_rows` (lines 246-254): `zip(row_heights, contents)` (equal
lengths in the pipeline) into `Row`s sharing the decoration's vertical
divider. -/
def get_rows (v_div : Divider) (heights : List Nat)
    (contents : List (List Content)) (widths : List Nat) : List Row :=
  (List.zip heights contents).map (fun p => Row.mk (build_cells p.1 widths p.2) v_div)

/-- `str(row)` for each row; `none` if any raises. -/
def render_rows : List Row → Option (List Str)
  | [] => some []
  | r :: rs =>
    match Row.str r, render_rows rs with
    | some s, some t => some (s :: t)
    | _, _ => Option.none

/-- Python `str.removesuffix("\n")`. -/
def removesuffixNL (s : Str) : Str :=
  if s.getLast? = some '\n' then s.dropLast else s

/-- The line-break characters of Python's `str.splitlines` other than
`'\n'`.  The model's `splitlines` does not cut at these, so theorems
about rendered line geometry assume inputs avoid them. -/
def otherBreak (c : Char) : Bool :=
  c ∈ ['\r', '\x0b', '\x0c', '\x1c', '\x1d', '\x1e', '\x85', '\u2028', '\u2029']

/-- Position `i` of `n` divider slots is selected by the slice. -/
def PySlice.active (sl : PySlice) (n i : Nat) : Prop :=
  (sl.norm n).1 ≤ i ∧ i < (sl.norm n).2

instance (sl : PySlice) (n i : Nat) : Decidable (sl.active n i) :=
  inferInstanceAs (Decidable (_ ∧ _))

/-- `Table.__init__` + `Table.__str__` (lines 213-262): derive contents,
row heights (may raise), column widths and rows, interleave rendered rows
with `div_lines` via `zip_longest` fashion (`iter_join`), and strip one
trailing newline. -/
def tableStr (data : List (List Str)) (deco : TableDecoration) : Option Str :=
  (get_row_heights (get_content data)).bind (fun heights =>
    (render_rows (get_rows deco.v_div heights (get_content data)
        (get_col_widths (get_content data)))).bind (fun rstrs =>
      some (removesuffixNL (iter_join rstrs
        (deco.div_lines (get_col_widths (get_content data)) (get_content data).length)))))

/-! ## Basic lemmas about `splitlines` -/

theorem splitlines_cons_nl (cs : Str) : splitlines ('\n' :: cs) = [] :: splitlines cs := by
  rw [splitlines]
  simp

theorem splitlines_cons_of_ne (c : Char) (cs : Str) (hc : c ≠ '\n') :
    splitlines (c :: cs) =
      match splitlines cs with
      | [] => [[c]]
      | l :: ls => (c :: l) :: ls := by
  rw [splitlines]
  simp [hc]

theorem splitlines_append_nl (l t : Str) (hl : '\n' ∉ l) :
    splitlines (l ++ '\n' :: t) = l :: splitlines t := by
  induction l with
  | nil => simpa using splitlines_cons_nl t
  | cons c cs ih =>
    have hc : c ≠ '\n' := fun h => hl (h ▸ List.mem_cons_self c cs)
    have hl' : '\n' ∉ cs := fun h => hl (List.mem_cons_of_mem _ h)
    rw [List.cons_append, splitlines_cons_of_ne c _ hc, ih hl']

theorem splitlines_of_no_nl (l : Str) (hl : '\n' ∉ l) :
    splitlines l = if l = [] then [] else [l] := by
  induction l with
  | nil => rfl
  | cons c cs ih =>
    have hc : c ≠ '\n' := fun h => hl (h ▸ List.mem_cons_self c cs)
    have hl' : '\n' ∉ cs := fun h => hl (List.mem_cons_of_mem _ h)
    rw [splitlines_cons_of_ne c cs hc, ih hl']
    by_cases h : cs = [] <;> simp [h]

theorem splitlines_flat (L : List Str) (t : Str) (hL : ∀ l ∈ L, '\n' ∉ l) :
    splitlines ((L.map (fun l => l ++ ['\n'])).flatten ++ t) = L ++ splitlines t := by
  induction L with
  | nil => simp
  | cons x xs ih =>
    have hx : '\n' ∉ x := hL x (List.mem_cons_self x xs)
    have hxs : ∀ l ∈ xs, '\n' ∉ l := fun l hl => hL l (List.mem_cons_of_mem _ hl)
    simp only [List.map_cons, List.flatten_cons, List.append_assoc, List.singleton_append,
      List.cons_append]
    rw [splitlines_append_nl _ _ hx]
    simp only [List.nil_append]
    rw [ih hxs]

theorem mem_splitlines_no_nl (s : Str) : ∀ l ∈ splitlines s, '\n' ∉ l := by
  induction s with
  | nil => simp [splitlines]
  | cons c cs ih =>
    by_cases hc : c = '\n'
    · subst hc
      rw [splitlines_cons_nl]
      intro l hl
      rcases List.mem_cons.mp hl with rfl | h
      · simp
      · exact ih l h
    · rw [splitlines_cons_of_ne c cs hc]
      cases h : splitlines cs with
      | nil =>
        intro l hl
        rcases List.mem_cons.mp hl with rfl | h'
        · simpa using Ne.symm hc
        · simp at h'
      | cons m ms =>
        rw [h] at ih
        intro l hl
        rcases List.mem_cons.mp hl with rfl | hmem
        · have hm : '\n' ∉ m := ih m (List.mem_cons_self m ms)
          intro hx
          rcases List.mem_cons.mp hx with h' | h'
          · exact hc h'.symm
          · exact hm h'
        · exact ih l (List.mem_cons_of_mem _ hmem)

theorem splitlines_ne_nil (s : Str) (h : s ≠ []) : splitlines s ≠ [] := by
  cases s with
  | nil => exact absurd rfl h
  | cons c cs =>
    by_cases hc : c = '\n'
    · subst hc; rw [splitlines_cons_nl]; simp
    · rw [splitlines_cons_of_ne c cs hc]
      cases splitlines cs <;> simp

theorem splitlines_length_eq (s : Str) :
    s.getLast? ≠ some '\n' →
      (splitlines s).length = (Content.mk s).get_height := by
  induction s with
  | nil => intro _; rfl
  | cons c cs ih =>
    intro h
    by_cases hcs : cs = []
    · subst hcs
      have hc : c ≠ '\n' := fun hc => h (by simp [hc])
      rw [splitlines_cons_of_ne c [] hc]
      simp [splitlines, Content.get_height, List.count_cons, Ne.symm hc]
    · have hlast : cs.getLast? ≠ some '\n' := by
        cases cs with
        | nil => exact absurd rfl hcs
        | cons d ds => rwa [List.getLast?_cons_cons] at h
      have ihc := ih hlast
      unfold Content.get_height at ihc ⊢
      rw [if_neg hcs] at ihc
      rw [if_neg (by simp)]
      by_cases hc : c = '\n'
      · subst hc
        rw [splitlines_cons_nl]
        simp only [List.length_cons, ihc, List.count_cons]
        simp
      · rw [splitlines_cons_of_ne c cs hc]
        have hne : splitlines cs ≠ [] := splitlines_ne_nil cs hcs
        cases hsp : splitlines cs with
        | nil => exact absurd hsp hne
        | cons m ms =>
          rw [hsp] at ihc
          simp only [List.length_cons] at ihc ⊢
          rw [ihc]
          simp [List.count_cons, Ne.symm hc]

/-! ## Basic lemmas about `h_pad` -/

/-- Structure of `h_pad` under the operating conditions of the pipeline:
the text fits the width and the ratio is in `[0, 1]`.  The left pad is
`floor(align * (width - len))` fill glyphs, the right pad is the rest of
the slack, and the result ends with one newline. -/
theorem h_pad_core (text : Str) (W : Nat) (a : ℚ) (f : Char)
    (hW : text.length ≤ W) (h0 : 0 ≤ a) (h1 : a ≤ 1) :
    h_pad text W a f =
      List.replicate ((Int.floor (a * ((W : ℚ) - (text.length : ℚ)))).toNat) f ++ text ++
        List.replicate (W - text.length -
          (Int.floor (a * ((W : ℚ) - (text.length : ℚ)))).toNat) f ++ ['\n'] ∧
      (Int.floor (a * ((W : ℚ) - (text.length : ℚ)))).toNat ≤ W - text.length := by
  have hpc : (((W : Int) - (text.length : Int) : Int) : ℚ) = (W : ℚ) - (text.length : ℚ) := by
    push_cast
    ring
  have hp0 : (0 : ℚ) ≤ (W : ℚ) - (text.length : ℚ) := by
    have : (text.length : ℚ) ≤ (W : ℚ) := by exact_mod_cast hW
    linarith
  have hfl0 : 0 ≤ Int.floor (a * ((W : ℚ) - (text.length : ℚ))) :=
    Int.floor_nonneg.mpr (mul_nonneg h0 hp0)
  have hfl1 : Int.floor (a * ((W : ℚ) - (text.length : ℚ))) ≤ (W : Int) - (text.length : Int) := by
    have hq : a * ((W : ℚ) - (text.length : ℚ)) ≤ (((W : Int) - (text.length : Int) : Int) : ℚ) := by
      rw [hpc]
      nlinarith
    have := Int.floor_le_floor hq
    rwa [Int.floor_intCast] at this
  constructor
  · simp only [h_pad, repInt]
    rw [hpc]
    have hrp : ((W : Int) - (text.length : Int) -
        Int.floor (a * ((W : ℚ) - (text.length : ℚ)))).toNat =
        W - text.length - (Int.floor (a * ((W : ℚ) - (text.length : ℚ)))).toNat := by
      omega
    rw [hrp]
  · omega

/-- `h_pad` at ratio `0` (the call made by `Content.__str__`): the text
followed by right fill to the width, then a newline. -/
theorem h_pad_zero (l : Str) (cw : Nat) (f : Char) (h : l.length ≤ cw) :
    h_pad l cw 0 f = l ++ List.replicate (cw - l.length) f ++ ['\n'] := by
  have := (h_pad_core l cw 0 f h le_rfl zero_le_one).1
  rw [this]
  simp

/-- Every `h_pad` output is a newline-free body of exactly `width`
characters followed by one newline. -/
theorem h_pad_line (text : Str) (W : Nat) (a : ℚ) (f : Char)
    (hW : text.length ≤ W) (h0 : 0 ≤ a) (h1 : a ≤ 1) (hf : f ≠ '\n') (ht : '\n' ∉ text) :
    ∃ B : Str, h_pad text W a f = B ++ ['\n'] ∧ B.length = W ∧ '\n' ∉ B := by
  obtain ⟨heq, hle⟩ := h_pad_core text W a f hW h0 h1
  refine ⟨_ ++ text ++ _, by rw [heq, List.append_assoc, List.append_assoc], ?_, ?_⟩
  · simp only [List.length_append, List.length_replicate]
    omega
  · intro hmem
    simp only [List.append_assoc, List.mem_append] at hmem
    rcases hmem with h' | h' | h'
    · exact hf (List.eq_of_mem_replicate h').symm
    · exact ht h'
    · exact hf (List.eq_of_mem_replicate h').symm

/-! ## Maximum folds and `Content` measurements -/

theorem le_foldr_max (L : List Nat) (x : Nat) (hx : x ∈ L) : x ≤ L.foldr max 0 := by
  induction L with
  | nil => cases hx
  | cons y ys ih =>
    rcases List.mem_cons.mp hx with rfl | h
    · exact le_max_left _ _
    · exact le_trans (ih h) (le_max_right _ _)

theorem foldl_max_eq (L : List Nat) : ∀ b, L.foldl max b = max b (L.foldr max 0) := by
  induction L with
  | nil => intro b; simp
  | cons x xs ih =>
    intro b
    simp only [List.foldl_cons, List.foldr_cons, ih (max b x)]
    rw [max_assoc]

theorem pymaxByLen_length (xs : List Str) : ∀ x : Str,
    (pymaxByLen x xs).length = xs.foldl (fun m l => max m l.length) x.length := by
  induction xs with
  | nil => intro x; rfl
  | cons y ys ih =>
    intro x
    simp only [pymaxByLen, List.foldl_cons] at ih ⊢
    rw [ih (if x.length < y.length then y else x)]
    congr 1
    split_ifs with h
    · exact (max_eq_right (le_of_lt h)).symm
    · exact (max_eq_left (le_of_not_lt h)).symm

theorem get_width_eq (s : Str) :
    (Content.mk s).get_width = ((splitlines s).map List.length).foldr max 0 := by
  unfold Content.get_width
  cases h : splitlines s with
  | nil => rfl
  | cons l ls =>
    simp only
    rw [pymaxByLen_length, ← List.foldl_map List.length max, foldl_max_eq]
    simp

theorem le_get_width (s : Str) : ∀ l ∈ splitlines s, l.length ≤ (Content.mk s).get_width := by
  rw [get_width_eq]
  intro l hl
  exact le_foldr_max _ _ (List.mem_map_of_mem List.length hl)

/-! ## Claim C5: `Content` width and height -/

/-- C5, counterexample: the claim says height equals the number of lines,
but for the string `"a\n"` (one line) the code computes
`count("\n") + 1 = 2`. -/
theorem C5_counterexample :
    (Content.mk ("a\n".toList)).get_height = 2 ∧
      (splitlines ("a\n".toList)).length = 1 ∧ (2 : Nat) ≠ 1 := by
  decide

/-- C5, amended: `width` is the maximum line length (0 when there are no
lines); `height` is `count("\n") + 1` for nonempty text and `0` for empty
text, which equals the number of lines exactly when the text does not end
with a newline; nonempty text has height at least 1. -/
theorem C5_amended (s : Str) :
    (Content.mk s).get_width = ((splitlines s).map List.length).foldr max 0 ∧
    (Content.mk s).get_height = (if s = [] then 0 else s.count '\n' + 1) ∧
    (s.getLast? ≠ some '\n' → (Content.mk s).get_height = (splitlines s).length) ∧
    (s ≠ [] → 1 ≤ (Content.mk s).get_height) := by
  refine ⟨get_width_eq s, rfl, fun h => (splitlines_length_eq s h).symm, fun h => ?_⟩
  unfold Content.get_height
  simp [h]

/-- C5 witness: the theorem applied at `"ab\nc"`. -/
theorem C5_amended_witness :
    (("ab\nc".toList : Str).getLast? ≠ some '\n') ∧
      (Content.mk ("ab\nc".toList)).get_height = (splitlines ("ab\nc".toList)).length ∧
      (Content.mk ("ab\nc".toList)).get_width =
        ((splitlines ("ab\nc".toList)).map List.length).foldr max 0 :=
  ⟨by decide, (C5_amended ("ab\nc".toList)).2.2.1 (by decide), (C5_amended ("ab\nc".toList)).1⟩

/-! ## Claim C3: horizontal padding -/

/-- C3, counterexample: the claim's `round` formula predicts 2 left pads
for a 1-character line in a width-4 cell at ratio 0.5
(`round(0.5 * 3) = 2`), i.e. `"  a \n"`; the code floors and produces
`" a  \n"`. -/
theorem C3_counterexample :
    Cell.str ⟨⟨("a".toList)⟩, 1, 4, ⟨1/2, 1/2, ' '⟩⟩ = some ([' ', 'a', ' ', ' ', '\n']) ∧
      ([' ', 'a', ' ', ' ', '\n'] : Str) ≠ [' ', ' ', 'a', ' ', '\n'] := by
  constructor
  · norm_num +decide [Cell.str, cellLoop, Cell.print_start, Cell.print_stop, Content.str,
      Content.get_height, Content.get_width, splitlines, pymaxByLen, h_pad, repInt,
      List.range_succ, List.count_cons, List.count_nil, List.replicate_succ]
  · decide

/-- C3, amended: a line of length at most `W` is padded to `W` with
`floor(h_align * (W - len))` (not `round`) fill glyphs on the left and the
remaining `W - len - lpad` on the right.  The claim's worked examples
(2/2, 0/4, 4/0 for a 3-character string at width 7) are unchanged, since
`floor` and `round` agree there. -/
theorem C3_amended (text : Str) (W : Nat) (a : ℚ) (f : Char)
    (hW : text.length ≤ W) (h0 : 0 ≤ a) (h1 : a ≤ 1) :
    h_pad text W a f =
      List.replicate ((Int.floor (a * ((W : ℚ) - (text.length : ℚ)))).toNat) f ++ text ++
        List.replicate (W - text.length -
          (Int.floor (a * ((W : ℚ) - (text.length : ℚ)))).toNat) f ++ ['\n'] ∧
      (Int.floor (a * ((W : ℚ) - (text.length : ℚ)))).toNat ≤ W - text.length :=
  h_pad_core text W a f hW h0 h1

/-- C3 witness: the claim's own example, a 3-character string in a
width-7 cell at ratio 1/2, where the floor formula yields 2 left and
2 right fill glyphs. -/
theorem C3_amended_witness :
    (("abc".toList : Str).length ≤ 7 ∧ (0 : ℚ) ≤ 1/2 ∧ (1/2 : ℚ) ≤ 1) ∧
      h_pad ("abc".toList) 7 (1/2) ' ' =
        List.replicate ((Int.floor ((1/2 : ℚ) * ((7 : ℚ) - (("abc".toList : Str).length : ℚ)))).toNat) ' ' ++
          ("abc".toList) ++
          List.replicate (7 - ("abc".toList : Str).length -
            (Int.floor ((1/2 : ℚ) * ((7 : ℚ) - (("abc".toList : Str).length : ℚ)))).toNat) ' ' ++
          ['\n'] :=
  ⟨⟨by decide, by norm_num, by norm_num⟩,
    (C3_amended ("abc".toList) 7 (1/2) ' ' (by decide) (by norm_num) (by norm_num)).1⟩

/-! ## Claim C8: `CellFormat` validation -/

/-- C8: constructing a `CellFormat` fails exactly when a ratio lies
outside `[0, 1]` (the check happens in `__post_init__`, i.e. at
construction time), and the default format is center/center with a space
fill. -/
theorem C8_holds (v h : ℚ) (f : Char) :
    (mkCellFormat v h f = Option.none ↔ (v < 0 ∨ 1 < v ∨ h < 0 ∨ 1 < h)) ∧
      mkCellFormat (1/2) (1/2) ' ' = some ({} : CellFormat) ∧
      ({} : CellFormat) = ⟨1/2, 1/2, ' '⟩ := by
  refine ⟨?_, by norm_num [mkCellFormat], rfl⟩
  unfold mkCellFormat
  split_ifs with hif
  · simp only [reduceCtorEq, false_iff]
    intro hcon
    rcases hcon with h' | h' | h' | h' <;> [linarith [hif.1.1]; linarith [hif.1.2];
      linarith [hif.2.1]; linarith [hif.2.2]]
  · simp only [true_iff]
    by_contra hc
    push_neg at hc
    exact hif ⟨⟨hc.1, hc.2.1⟩, hc.2.2.1, hc.2.2.2⟩

/-- C8 witness: the theorem instantiated at a ratio outside `[0, 1]`
(rejected) and kept alongside the accepted default. -/
theorem C8_holds_witness :
    mkCellFormat 2 (1/2) ' ' = Option.none ∧ mkCellFormat (1/2) (1/2) ' ' = some ({} : CellFormat) :=
  ⟨(C8_holds 2 (1/2) ' ').1.mpr (Or.inr (Or.inl (by norm_num))),
    (C8_holds 2 (1/2) ' ').2.1⟩

/-! ## Claim C4: degenerate geometry -/

theorem get_row_heights_none (cont : List (List Content)) :
    (∃ r ∈ cont, r = []) → get_row_heights cont = Option.none := by
  induction cont with
  | nil => rintro ⟨r, hr, _⟩; cases hr
  | cons x rest ih =>
    rintro ⟨r, hr, hre⟩
    rcases List.mem_cons.mp hr with rfl | hmem
    · rw [hre, get_row_heights]
      simp
    · rw [get_row_heights]
      rw [ih ⟨r, hmem, hre⟩]
      cases x.map Content.get_height <;> simp

/-- C4, counterexample: a grid consisting of one *empty row* does not
render as empty output — `Table.get_row_heights` calls `max([])`, which
raises `ValueError` (modelled by `none`). -/
theorem C4_counterexample :
    tableStr [[]] ({} : TableDecoration) = Option.none ∧
      (Option.none ≠ some ([] : Str)) := by
  constructor
  · rfl
  · decide

/-- C4, amended: an empty grid renders as the empty string, and
zero-width/zero-height cells render as empty output (e.g. the grid
`[[""]]`), but any grid containing an empty row raises `ValueError` at
`Table` construction rather than rendering. -/
theorem C4_amended :
    (∀ deco : TableDecoration, tableStr [] deco = some []) ∧
      (∀ deco : TableDecoration, tableStr [[[]]] deco = some []) ∧
      (∀ (data : List (List Str)) (deco : TableDecoration) (row : List Str),
        row ∈ data → row = [] → tableStr data deco = Option.none) := by
  refine ⟨fun deco => rfl, fun deco => rfl, fun data deco row hmem hrow => ?_⟩
  have : get_row_heights (get_content data) = Option.none := by
    apply get_row_heights_none
    exact ⟨row.map Content.mk, List.mem_map_of_mem (List.map Content.mk) hmem, by rw [hrow]; rfl⟩
  simp only [tableStr]
  rw [this]
  rfl

/-- C4 witness: the amended theorem applied to the grid `[["a"], []]`,
whose second row is empty. -/
theorem C4_amended_witness :
    (([] : List Str) ∈ [[("a".toList)], ([] : List Str)]) ∧
      tableStr [[("a".toList)], []] ({} : TableDecoration) = Option.none :=
  ⟨by decide, C4_amended.2.2 [[("a".toList)], []] {} [] (by decide) rfl⟩

/-! ## Claim C2: horizontal border tier lines -/

/-- When the four divider glyphs cannot be confused with each other,
`char_return` is exactly the junction rule: joint glyph where both
dividers are present, else the present divider's glyph, else the filler. -/
theorem char_return_resolve (t : TableDecoration)
    (h1 : t.h_div.char ≠ t.v_div.char) (h2 : t.h_div.char ≠ t.v_div.default)
    (h3 : t.v_div.char ≠ t.h_div.default)
    (x y : Char) (hx : x = t.h_div.char ∨ x = t.h_div.default)
    (hy : y = t.v_div.char ∨ y = t.v_div.default) :
    t.char_return x y ' ' =
      if x = t.h_div.char ∧ y = t.v_div.char then t.mid_bord.mid
      else if x = t.h_div.char then t.h_div.char
      else if y = t.v_div.char then t.v_div.char
      else ' ' := by
  have hyh : y ≠ t.h_div.char := by
    rcases hy with rfl | rfl
    · exact fun e => h1 e.symm
    · exact fun e => h2 e.symm
  have hxv : x ≠ t.v_div.char := by
    rcases hx with rfl | rfl
    · exact h1
    · exact fun e => h3 e.symm
  unfold TableDecoration.char_return
  simp [hyh, hxv]

/-- C2, counterexample: for a one-column, two-row table with the default
decoration, the (interior) divider tier is rendered as `"─"`, with no
left cap `├` and no right cap `┤` — the claim's
`left-cap + run + right-cap` shape would give `"├─┤"`. -/
theorem C2_counterexample :
    ({} : TableDecoration).div_lines [1] 2 = [['─', '\n']] ∧
      (['─', '\n'] : Str) ≠ ['├', '─', '┤', '\n'] := by
  constructor
  · rfl
  · decide

/-- C2, amended: each horizontal divider line is the per-column runs of
the tier's glyph (the horizontal glyph where the tier is active, else the
horizontal divider's default) joined at each interior column boundary by
the *middle* tier's junction glyph where both dividers are active, else
the active divider's glyph, else a space; there is **no** left cap and
**no** right cap, the top/bottom `JointChars` are never used, and
`div_lines` always produces `rowCount − 1` lines (never `rowCount + 1`:
no outer top/bottom border exists). -/
theorem C2_amended (t : TableDecoration) (widths : List Nat) (n : Nat)
    (h1 : t.h_div.char ≠ t.v_div.char) (h2 : t.h_div.char ≠ t.v_div.default)
    (h3 : t.v_div.char ≠ t.h_div.default) (h4 : t.h_div.char ≠ t.h_div.default)
    (h5 : t.v_div.char ≠ t.v_div.default) :
    t.div_lines widths n = (List.range (n - 1)).map (fun tier =>
      iter_join
        (widths.map (fun w => List.replicate w
          (if t.h_div.slices.active (n - 1) tier then t.h_div.char else t.h_div.default)))
        ((List.range (widths.length - 1)).map (fun b =>
          [if t.h_div.slices.active (n - 1) tier ∧ t.v_div.slices.active (widths.length - 1) b
            then t.mid_bord.mid
            else if t.h_div.slices.active (n - 1) tier then t.h_div.char
            else if t.v_div.slices.active (widths.length - 1) b then t.v_div.char
            else ' '])) ++ ['\n']) := by
  unfold TableDecoration.div_lines TableDecoration.joints Divider.chars
  simp only [List.map_map, List.zip_map', PySlice.active]
  apply List.map_congr_left
  intro tier _
  simp only [Function.comp]
  congr 1
  congr 1
  rw [List.map_map]
  apply List.map_congr_left
  intro b _
  simp only [Function.comp_apply]
  rw [char_return_resolve t h1 h2 h3 _ _
    (by by_cases h : (t.h_div.slices.norm (n - 1)).1 ≤ tier ∧
          tier < (t.h_div.slices.norm (n - 1)).2 <;> simp [h])
    (by by_cases h : (t.v_div.slices.norm (widths.length - 1)).1 ≤ b ∧
          b < (t.v_div.slices.norm (widths.length - 1)).2 <;> simp [h])]
  by_cases hA : (t.h_div.slices.norm (n - 1)).1 ≤ tier ∧ tier < (t.h_div.slices.norm (n - 1)).2 <;>
    by_cases vA : (t.v_div.slices.norm (widths.length - 1)).1 ≤ b ∧
      b < (t.v_div.slices.norm (widths.length - 1)).2 <;>
    simp [hA, vA, Ne.symm h4, Ne.symm h5]

/-- C2 witness: the amended theorem at the default decoration, two
columns and three rows. -/
theorem C2_amended_witness :
    (({} : TableDecoration).h_div.char ≠ ({} : TableDecoration).v_div.char ∧
        ({} : TableDecoration).h_div.char ≠ ({} : TableDecoration).v_div.default ∧
        ({} : TableDecoration).v_div.char ≠ ({} : TableDecoration).h_div.default ∧
        ({} : TableDecoration).h_div.char ≠ ({} : TableDecoration).h_div.default ∧
        ({} : TableDecoration).v_div.char ≠ ({} : TableDecoration).v_div.default) ∧
      ({} : TableDecoration).div_lines [2, 1] 3 = (List.range (3 - 1)).map (fun tier =>
        iter_join
          (([2, 1] : List Nat).map (fun w => List.replicate w
            (if ({} : TableDecoration).h_div.slices.active (3 - 1) tier
             then ({} : TableDecoration).h_div.char else ({} : TableDecoration).h_div.default)))
          ((List.range (([2, 1] : List Nat).length - 1)).map (fun b =>
            [if ({} : TableDecoration).h_div.slices.active (3 - 1) tier ∧
                ({} : TableDecoration).v_div.slices.active (([2, 1] : List Nat).length - 1) b
              then ({} : TableDecoration).mid_bord.mid
              else if ({} : TableDecoration).h_div.slices.active (3 - 1) tier
                then ({} : TableDecoration).h_div.char
              else if ({} : TableDecoration).v_div.slices.active (([2, 1] : List Nat).length - 1) b
                then ({} : TableDecoration).v_div.char
              else ' '])) ++ ['\n']) :=
  ⟨⟨by decide, by decide, by decide, by decide, by decide⟩,
    C2_amended {} [2, 1] 3 (by decide) (by decide) (by decide) (by decide) (by decide)⟩

/-! ## Claim C9: suppressing the first and last divider positions -/

/-- Evaluation of the one-row, four-column table whose vertical divider
uses `slice(1, -1)`. -/
theorem c9_table_eval :
    tableStr [[("a".toList), ("b".toList), ("c".toList), ("d".toList)]]
        { v_div := ⟨'│', ⟨some 1, some (-1)⟩, ' '⟩ } = some ("a b│c d".toList) := by
  norm_num +decide [tableStr, get_content, get_row_heights, get_col_widths, row_upd,
    build_cells, get_rows, render_rows, Row.str, cellStrs, rowLoop, takeHeads, iter_join,
    Cell.str, cellLoop, Cell.print_start, Cell.print_stop, Content.str, Content.get_height,
    Content.get_width, splitlines, pymaxByLen, h_pad, repInt, Divider.chars, PySlice.norm,
    TableDecoration.div_lines, TableDecoration.joints, TableDecoration.char_return,
    removesuffixNL, List.range_succ, List.count_cons, List.count_nil, List.replicate_succ]

/-- C9, counterexample: with the vertical divider's span `slice(1, -1)`
on a one-row, four-column table, the row renders as `"a b│c d"` — the
*first and last interior column separators* are suppressed, not outer
borders, so the claim's "interior column separators remain" fails. -/
theorem C9_counterexample :
    tableStr [[("a".toList), ("b".toList), ("c".toList), ("d".toList)]]
        { v_div := ⟨'│', ⟨some 1, some (-1)⟩, ' '⟩ } = some ("a b│c d".toList) ∧
      ("a b│c d".toList : Str) ≠ ("a│b│c│d".toList) :=
  ⟨c9_table_eval, by decide⟩

/-- C9, amended: a row renders only the `numCols − 1` interior gaps — the
table never has outer left/right vertical borders, under any selector —
and `slice(1, -1)` carries the divider glyph exactly at interior gap
positions `1 … numCols − 3`, replacing the first and the last interior
separator by the default glyph (as in `"a b│c d"`). -/
theorem C9_amended :
    (∀ (c d : Char) (n : Nat),
      Divider.chars ⟨c, ⟨some 1, some (-1)⟩, d⟩ n =
        (List.range n).map (fun i => if 1 ≤ i ∧ i + 1 < n then c else d)) ∧
      tableStr [[("a".toList), ("b".toList), ("c".toList), ("d".toList)]]
          { v_div := ⟨'│', ⟨some 1, some (-1)⟩, ' '⟩ } = some ("a b│c d".toList) := by
  refine ⟨fun c d n => ?_, c9_table_eval⟩
  simp only [Divider.chars, PySlice.norm]
  apply List.map_congr_left
  intro i hi
  have h1r : ¬((1 : Int) < 0) := by norm_num
  have h2r : ((-1 : Int) < 0) := by norm_num
  rw [if_neg h1r, if_pos h2r]
  have hiff : (Int.toNat 1 ⊓ n ≤ i ∧ i < ((n : Int) + -1).toNat) ↔ (1 ≤ i ∧ i + 1 < n) := by
    omega
  simp only [hiff]

/-! ## Claim C1: vertical placement inside a cell -/

theorem cellLoop_cons_in (s e : Int) (w : Nat) (hA : ℚ) (f : Char) (x : Nat) (xs : List Nat)
    (l : Str) (ls : List Str) (hx : s ≤ (x : Int) ∧ (x : Int) < e) :
    cellLoop s e w hA f (x :: xs) (l :: ls) =
      (cellLoop s e w hA f xs ls).map (fun t => h_pad l w hA f ++ t) := by
  simp only [cellLoop]
  rw [if_pos hx]

theorem cellLoop_cons_out (s e : Int) (w : Nat) (hA : ℚ) (f : Char) (x : Nat) (xs : List Nat)
    (rem : List Str) (hx : ¬(s ≤ (x : Int) ∧ (x : Int) < e)) :
    cellLoop s e w hA f (x :: xs) rem =
      (cellLoop s e w hA f xs rem).map (fun t => h_pad [] w hA f ++ t) := by
  simp only [cellLoop]
  rw [if_neg hx]

/-- Unrolling the `Cell.__str__` loop: starting at output row `a` with
the not-yet-consumed content lines, every row in
`print_range ∩ [0, height)` takes the next line in order and every other
row takes the empty line. -/
theorem cellLoop_eq (s e : Int) (w : Nat) (hA : ℚ) (f : Char) (L : List Str)
    (hlen : e.toNat - s.toNat ≤ L.length) :
    ∀ (n a : Nat),
      cellLoop s e w hA f (List.range' a n) (L.drop (min a e.toNat - s.toNat)) =
        some (((List.range' a n).map (fun x =>
          h_pad (if s.toNat ≤ x ∧ x < e.toNat then L.getD (x - s.toNat) [] else [])
            w hA f)).flatten) := by
  intro n
  induction n with
  | zero => intro a; rfl
  | succ n ih =>
    intro a
    have hrange : List.range' a (n + 1) = a :: List.range' (a + 1) n := rfl
    rw [hrange]
    by_cases hx : s.toNat ≤ a ∧ a < e.toNat
    · have hx' : s ≤ (a : Int) ∧ (a : Int) < e := by omega
      have hmin : min a e.toNat - s.toNat = a - s.toNat := by omega
      have hk : a - s.toNat < L.length := by omega
      rw [hmin, List.drop_eq_getElem_cons hk, cellLoop_cons_in s e w hA f a _ _ _ hx']
      have hnx : L.drop (a - s.toNat + 1) = L.drop (min (a + 1) e.toNat - s.toNat) := by
        congr 1
        omega
      rw [hnx, ih (a + 1)]
      simp only [List.map_cons, List.flatten_cons]
      rw [if_pos hx, List.getD_eq_getElem L [] hk]
      rfl
    · have hx' : ¬(s ≤ (a : Int) ∧ (a : Int) < e) := by omega
      have hnx : L.drop (min a e.toNat - s.toNat) = L.drop (min (a + 1) e.toNat - s.toNat) := by
        congr 1
        omega
      rw [cellLoop_cons_out s e w hA f a _ _ hx', hnx, ih (a + 1)]
      simp only [List.map_cons, List.flatten_cons]
      rw [if_neg hx]
      rfl

/-- `Cell.__str__` in closed form, provided the content iterator holds
enough lines. -/
theorem cell_str_repr (c : Cell)
    (hlen : c.print_stop.toNat - c.print_start.toNat ≤ (splitlines c.content.str).length) :
    Cell.str c = some (((List.range c.height).map (fun x =>
      h_pad (if c.print_start.toNat ≤ x ∧ x < c.print_stop.toNat then
          (splitlines c.content.str).getD (x - c.print_start.toNat) []
        else []) c.width c.fmt.h_align c.fmt.fill)).flatten) := by
  unfold Cell.str
  rw [List.range_eq_range']
  have h := cellLoop_eq c.print_start c.print_stop c.width c.fmt.h_align c.fmt.fill
    (splitlines c.content.str) hlen c.height 0
  have h2 : min 0 c.print_stop.toNat - c.print_start.toNat = 0 := by omega
  rw [h2, List.drop_zero] at h
  exact h

/-- The stop of the print range always lies `content.height` past its
start, so as many lines as the range can consume exist whenever the
content iterator yields `content.height` lines. -/
theorem print_bounds (c : Cell)
    (hl : (splitlines c.content.str).length = c.content.get_height) :
    c.print_stop.toNat - c.print_start.toNat ≤ (splitlines c.content.str).length := by
  rw [hl]
  have : c.print_stop = c.print_start + (c.content.get_height : Int) := rfl
  omega

/-- `str(Content)` splits back into the content's lines, each
right-padded with spaces to the content width. -/
theorem content_str_splitlines (s : Str) :
    splitlines (Content.mk s).str =
      (splitlines s).map
        (fun l => l ++ List.replicate ((Content.mk s).get_width - l.length) ' ') := by
  unfold Content.str
  have hmap : (splitlines s).map (fun l => h_pad l (Content.mk s).get_width 0 ' ') =
      ((splitlines s).map
        (fun l => l ++ List.replicate ((Content.mk s).get_width - l.length) ' ')).map
        (fun l => l ++ ['\n']) := by
    rw [List.map_map]
    apply List.map_congr_left
    intro l hl
    simp only [Function.comp_apply]
    rw [h_pad_zero l _ ' ' (le_get_width s l hl)]
    try simp [List.append_assoc]
  rw [hmap]
  have hnl : ∀ l' ∈ (splitlines s).map
      (fun l => l ++ List.replicate ((Content.mk s).get_width - l.length) ' '), '\n' ∉ l' := by
    intro l' hl'
    obtain ⟨l, hl, rfl⟩ := List.mem_map.mp hl'
    intro hmem
    rcases List.mem_append.mp hmem with h' | h'
    · exact mem_splitlines_no_nl s l hl h'
    · exact absurd (List.eq_of_mem_replicate h') (by decide)
  have h2 := splitlines_flat
    ((splitlines s).map (fun l => l ++ List.replicate ((Content.mk s).get_width - l.length) ' '))
    [] hnl
  rw [show splitlines ([] : Str) = [] from rfl] at h2
  simp only [List.append_nil] at h2
  exact h2

theorem content_lines_length (s : Str) (h : s.getLast? ≠ some '\n') :
    (splitlines (Content.mk s).str).length = (Content.mk s).get_height := by
  rw [content_str_splitlines, List.length_map, splitlines_length_eq s h]

/-- C1, counterexample: a cell of target height 1 holding the 3-line
content `"a\nb\nc"` with `v_align = 1` renders the *first* content line
`"a"`, not the last line `"c"` claimed: the loop consumes the content
iterator in order on the rows of `print_range ∩ [0, height)`, so leading
out-of-range rows do not discard leading lines. -/
theorem C1_counterexample :
    Cell.str ⟨⟨("a\nb\nc".toList)⟩, 1, 1, ⟨1, 0, ' '⟩⟩ = some (['a', '\n']) ∧
      (['a', '\n'] : Str) ≠ ['c', '\n'] := by
  constructor
  · norm_num +decide [Cell.str, cellLoop, Cell.print_start, Cell.print_stop, Content.str,
      Content.get_height, Content.get_width, splitlines, pymaxByLen, h_pad, repInt,
      List.range_succ, List.count_cons, List.count_nil, List.replicate_succ]
  · decide

/-- C1, amended: output row `x` of a cell holds a content line exactly
when `start ≤ x < start + content.height` with
`start = floor((height − content.height) · v_align)`; the line shown
there is the content's line number `x − max(start, 0)` (right-padded to
the content width by `Content.__str__`), so consecutive content lines are
consumed *from the first line on*; every other row is `h_pad("")`, i.e.
`width` fill glyphs.  For `height ≥ content.height` this is the claim's
placement; in the overflow case the first `height` content lines are
shown regardless of `v_align`, rather than the claim's "lines falling
outside `[0, height)` are dropped". -/
theorem C1_amended (c : Cell) (hlast : c.content.text.getLast? ≠ some '\n') :
    Cell.str c = some (((List.range c.height).map (fun (x : Nat) =>
      h_pad (if c.print_start ≤ (x : Int) ∧ (x : Int) < c.print_stop then
          ((splitlines c.content.text).map
            (fun l => l ++ List.replicate (c.content.get_width - l.length) ' ')).getD
            (x - c.print_start.toNat) []
        else []) c.width c.fmt.h_align c.fmt.fill)).flatten) := by
  have hl : (splitlines c.content.str).length = c.content.get_height :=
    content_lines_length c.content.text hlast
  rw [cell_str_repr c (print_bounds c hl)]
  apply congrArg
  apply congrArg
  apply List.map_congr_left
  intro x _
  have hiff : (c.print_start.toNat ≤ x ∧ x < c.print_stop.toNat) ↔
      (c.print_start ≤ (x : Int) ∧ (x : Int) < c.print_stop) := by omega
  rw [content_str_splitlines c.content.text]
  simp only [hiff]

/-- C1 witness: the amended theorem at a concrete 2-line content centered
in a 4-row cell. -/
theorem C1_amended_witness :
    ((Cell.mk ⟨("ab\nc".toList)⟩ 4 5 {}).content.text.getLast? ≠ some '\n') ∧
      Cell.str (Cell.mk ⟨("ab\nc".toList)⟩ 4 5 {}) =
        some (((List.range (Cell.mk ⟨("ab\nc".toList)⟩ 4 5 {}).height).map (fun (x : Nat) =>
          h_pad (if (Cell.mk ⟨("ab\nc".toList)⟩ 4 5 {}).print_start ≤ (x : Int) ∧
              (x : Int) < (Cell.mk ⟨("ab\nc".toList)⟩ 4 5 {}).print_stop then
              ((splitlines (Cell.mk ⟨("ab\nc".toList)⟩ 4 5 {}).content.text).map
                (fun l => l ++ List.replicate
                  ((Cell.mk ⟨("ab\nc".toList)⟩ 4 5 {}).content.get_width - l.length) ' ')).getD
                (x - (Cell.mk ⟨("ab\nc".toList)⟩ 4 5 {}).print_start.toNat) []
            else []) (Cell.mk ⟨("ab\nc".toList)⟩ 4 5 {}).width
            (Cell.mk ⟨("ab\nc".toList)⟩ 4 5 {}).fmt.h_align
            (Cell.mk ⟨("ab\nc".toList)⟩ 4 5 {}).fmt.fill)).flatten) :=
  ⟨by decide, C1_amended (Cell.mk ⟨("ab\nc".toList)⟩ 4 5 {}) (by decide)⟩

/-! ## Claim C6: column widths and row padding -/

theorem row_upd_length : ∀ (ws row : List Nat), (row_upd ws row).length = max ws.length row.length := by
  intro ws row
  induction row generalizing ws with
  | nil => cases ws <;> simp [row_upd]
  | cons w rest ih =>
    cases ws with
    | nil => simpa [row_upd] using ih []
    | cons v vs =>
      simp only [row_upd, List.length_cons, ih vs]
      omega

theorem row_upd_getD : ∀ (ws row : List Nat) (c : Nat),
    (row_upd ws row).getD c 0 = max (ws.getD c 0) (row.getD c 0) := by
  intro ws row
  induction row generalizing ws with
  | nil => intro c; simp [row_upd]
  | cons w rest ih =>
    intro c
    cases ws with
    | nil =>
      cases c with
      | zero => simp [row_upd]
      | succ c => simpa [row_upd] using ih [] c
    | cons v vs =>
      cases c with
      | zero => simp [row_upd]
      | succ c => simpa [row_upd] using ih vs c

/-- The `defaultdict` fold of `get_col_widths`, position by position:
column `c`'s computed width is the maximum over rows of that row's width
at column `c`, a missing entry contributing `0`. -/
theorem get_col_widths_getD (contents : List (List Content)) (c : Nat) :
    (get_col_widths contents).getD c 0 =
      (contents.map (fun row => (row.map Content.get_width).getD c 0)).foldr max 0 := by
  suffices h : ∀ (rows : List (List Content)) (ws : List Nat),
      (rows.foldl (fun ws row => row_upd ws (row.map Content.get_width)) ws).getD c 0 =
      max (ws.getD c 0)
        ((rows.map (fun row => (row.map Content.get_width).getD c 0)).foldr max 0) by
    have h0 := h contents []
    simpa [get_col_widths] using h0
  intro rows
  induction rows with
  | nil => intro ws; simp
  | cons r rest ih =>
    intro ws
    simp only [List.foldl_cons, List.map_cons, List.foldr_cons]
    rw [ih (row_upd ws (r.map Content.get_width)), row_upd_getD, max_assoc]

theorem get_col_widths_length (contents : List (List Content)) :
    (get_col_widths contents).length = (contents.map List.length).foldr max 0 := by
  suffices h : ∀ (rows : List (List Content)) (ws : List Nat),
      (rows.foldl (fun ws row => row_upd ws (row.map Content.get_width)) ws).length =
      max ws.length ((rows.map List.length).foldr max 0) by
    have h0 := h contents []
    simpa [get_col_widths] using h0
  intro rows
  induction rows with
  | nil => intro ws; simp
  | cons r rest ih =>
    intro ws
    simp only [List.foldl_cons, List.map_cons, List.foldr_cons]
    rw [ih (row_upd ws (r.map Content.get_width)), row_upd_length, List.length_map, max_assoc]

theorem row_length_le (contents : List (List Content)) (row : List Content)
    (h : row ∈ contents) : row.length ≤ (get_col_widths contents).length := by
  rw [get_col_widths_length]
  exact le_foldr_max _ _ (List.mem_map_of_mem List.length h)

theorem content_width_le (contents : List (List Content)) (row : List Content) (c : Nat)
    (h : row ∈ contents) :
    (row.map Content.get_width).getD c 0 ≤ (get_col_widths contents).getD c 0 := by
  rw [get_col_widths_getD]
  exact le_foldr_max _ _ (List.mem_map_of_mem _ h)

theorem build_cells_length (hgt : Nat) : ∀ (ws : List Nat) (row : List Content),
    (build_cells hgt ws row).length = ws.length := by
  intro ws
  induction ws with
  | nil => intro row; rfl
  | cons w ws ih => intro row; cases row <;> simp [build_cells, ih]

theorem build_cells_get (hgt : Nat) : ∀ (ws : List Nat) (row : List Content) (i : Nat),
    i < ws.length →
    (build_cells hgt ws row).get? i =
      some (Cell.mk (row.getD i (Content.mk [])) hgt (ws.getD i 0) {}) := by
  intro ws
  induction ws with
  | nil =>
    intro row i h
    simp at h
  | cons w ws ih =>
    intro row i h
    cases row with
    | nil =>
      cases i with
      | zero => simp [build_cells]
      | succ i => simpa [build_cells] using ih [] i (by simpa using h)
    | cons cnt rest =>
      cases i with
      | zero => simp [build_cells]
      | succ i => simpa [build_cells] using ih rest i (by simpa using h)

/-- C6: each computed column width is the maximum over rows of the
content width at that column (missing cells contributing 0); no row is
longer than the column-width list; every built `Row` has exactly as many
cells as the table has columns; and the cells padding a short row hold
empty `Content`. -/
theorem C6_holds (data : List (List Str)) :
    (∀ c : Nat, (get_col_widths (get_content data)).getD c 0 =
      ((get_content data).map (fun row => (row.map Content.get_width).getD c 0)).foldr max 0) ∧
    (∀ row ∈ get_content data, row.length ≤ (get_col_widths (get_content data)).length) ∧
    (∀ (v_div : Divider) (heights : List Nat),
      ∀ r ∈ get_rows v_div heights (get_content data) (get_col_widths (get_content data)),
        r.cells.length = (get_col_widths (get_content data)).length) ∧
    (∀ (hgt : Nat) (row : List Content), row ∈ get_content data →
      ∀ i : Nat, i < (get_col_widths (get_content data)).length → row.length ≤ i →
        (build_cells hgt (get_col_widths (get_content data)) row).get? i =
          some (Cell.mk (Content.mk []) hgt
            ((get_col_widths (get_content data)).getD i 0) {})) := by
  refine ⟨get_col_widths_getD (get_content data),
    fun row h => row_length_le _ row h, ?_, ?_⟩
  · intro v_div heights r hr
    unfold get_rows at hr
    obtain ⟨p, _, rfl⟩ := List.mem_map.mp hr
    exact build_cells_length _ _ _
  · intro hgt row _ i hi hle
    rw [build_cells_get hgt _ row i hi, List.getD_eq_default _ _ hle]

/-- C6 witness: the theorem applied to the jagged grid
`[["a", "bbb"], ["cc"]]` — the short second row, padded at index 1 with
empty content, and both rows' cell counts. -/
theorem C6_witness :
    ([Content.mk ("cc".toList)] ∈ get_content [["a".toList, "bbb".toList], ["cc".toList]]) ∧
      ([Content.mk ("cc".toList)] : List Content).length ≤
        (get_col_widths (get_content [["a".toList, "bbb".toList], ["cc".toList]])).length ∧
      ((1 : Nat) < (get_col_widths (get_content [["a".toList, "bbb".toList], ["cc".toList]])).length ∧
        ([Content.mk ("cc".toList)] : List Content).length ≤ 1) ∧
      (build_cells 1 (get_col_widths (get_content [["a".toList, "bbb".toList], ["cc".toList]]))
          [Content.mk ("cc".toList)]).get? 1 =
        some (Cell.mk (Content.mk []) 1
          ((get_col_widths (get_content [["a".toList, "bbb".toList], ["cc".toList]])).getD 1 0) {}) :=
  ⟨by decide, (C6_holds [["a".toList, "bbb".toList], ["cc".toList]]).2.1 _ (by decide),
    ⟨by decide, by decide⟩,
    (C6_holds [["a".toList, "bbb".toList], ["cc".toList]]).2.2.2 1 _ (by decide) 1
      (by decide) (by decide)⟩

/-! ## Rendering machinery shared by C7 and C10 -/

theorem iter_join_length : ∀ (xs ys : List Str),
    (iter_join xs ys).length = (xs.map List.length).sum + (ys.map List.length).sum := by
  intro xs
  induction xs with
  | nil => intro ys; simp [iter_join]
  | cons x xs ih =>
    intro ys
    cases ys with
    | nil =>
      simp only [iter_join, List.length_append, ih [], List.map_cons, List.sum_cons]
      simp
    | cons y ys =>
      simp only [iter_join, List.length_append, ih ys, List.map_cons, List.sum_cons]
      omega

theorem mem_iter_join : ∀ (xs ys : List Str) (a : Char), a ∈ iter_join xs ys →
    (∃ x ∈ xs, a ∈ x) ∨ (∃ y ∈ ys, a ∈ y) := by
  intro xs
  induction xs with
  | nil =>
    intro ys a ha
    right
    exact List.mem_flatten.mp ha
  | cons x xs ih =>
    intro ys a ha
    cases ys with
    | nil =>
      rcases List.mem_append.mp ha with h | h
      · exact Or.inl ⟨x, List.mem_cons_self x xs, h⟩
      · rcases ih [] a h with ⟨x', hx', ha'⟩ | ⟨y', hy', _⟩
        · exact Or.inl ⟨x', List.mem_cons_of_mem _ hx', ha'⟩
        · cases hy'
    | cons y ys =>
      rcases List.mem_append.mp ha with h | h
      · rcases List.mem_append.mp h with h' | h'
        · exact Or.inl ⟨x, List.mem_cons_self x xs, h'⟩
        · exact Or.inr ⟨y, List.mem_cons_self y ys, h'⟩
      · rcases ih ys a h with ⟨x', hx', ha'⟩ | ⟨y', hy', ha'⟩
        · exact Or.inl ⟨x', List.mem_cons_of_mem _ hx', ha'⟩
        · exact Or.inr ⟨y', List.mem_cons_of_mem _ hy', ha'⟩

theorem flatten_blocks (P : Str → Prop) : ∀ (ys : List Str),
    (∀ y ∈ ys, ∃ L : List Str, y = (L.map (fun l => l ++ ['\n'])).flatten ∧ ∀ l ∈ L, P l) →
    ∃ A : List Str, ys.flatten = (A.map (fun l => l ++ ['\n'])).flatten ∧ ∀ l ∈ A, P l := by
  intro ys
  induction ys with
  | nil => intro _; exact ⟨[], rfl, by simp⟩
  | cons y ys ih =>
    intro h
    obtain ⟨Ly, hy, hPy⟩ := h y (List.mem_cons_self y ys)
    obtain ⟨A, hA, hPA⟩ := ih (fun y' hy' => h y' (List.mem_cons_of_mem _ hy'))
    refine ⟨Ly ++ A, ?_, ?_⟩
    · simp only [List.flatten_cons, hy, hA, List.map_append, List.flatten_append]
    · intro l hl
      rcases List.mem_append.mp hl with h' | h'
      · exact hPy l h'
      · exact hPA l h'

theorem iter_join_blocks (P : Str → Prop) : ∀ (xs ys : List Str),
    (∀ x ∈ xs, ∃ L : List Str, x = (L.map (fun l => l ++ ['\n'])).flatten ∧ ∀ l ∈ L, P l) →
    (∀ y ∈ ys, ∃ L : List Str, y = (L.map (fun l => l ++ ['\n'])).flatten ∧ ∀ l ∈ L, P l) →
    ∃ A : List Str, iter_join xs ys = (A.map (fun l => l ++ ['\n'])).flatten ∧ ∀ l ∈ A, P l := by
  intro xs
  induction xs with
  | nil => intro ys _ hy; exact flatten_blocks P ys hy
  | cons x xs ih =>
    intro ys hx hy
    obtain ⟨Lx, hLx, hPx⟩ := hx x (List.mem_cons_self x xs)
    cases ys with
    | nil =>
      obtain ⟨A, hA, hPA⟩ := ih [] (fun x' h' => hx x' (List.mem_cons_of_mem _ h')) (by simp)
      refine ⟨Lx ++ A, ?_, ?_⟩
      · simp only [iter_join, hLx, hA, List.map_append, List.flatten_append]
      · intro l hl
        rcases List.mem_append.mp hl with h' | h'
        · exact hPx l h'
        · exact hPA l h'
    | cons y ys =>
      obtain ⟨Ly, hLy, hPy⟩ := hy y (List.mem_cons_self y ys)
      obtain ⟨A, hA, hPA⟩ := ih ys (fun x' h' => hx x' (List.mem_cons_of_mem _ h'))
        (fun y' h' => hy y' (List.mem_cons_of_mem _ h'))
      refine ⟨Lx ++ Ly ++ A, ?_, ?_⟩
      · simp only [iter_join, hLx, hLy, hA, List.map_append, List.flatten_append,
          List.append_assoc]
      · intro l hl
        rcases List.mem_append.mp hl with h' | h'
        · rcases List.mem_append.mp h' with h'' | h''
          · exact hPx l h''
          · exact hPy l h''
        · exact hPA l h'

theorem splitlines_flatten (L : List Str) (hL : ∀ l ∈ L, '\n' ∉ l) :
    splitlines ((L.map (fun l => l ++ ['\n'])).flatten) = L := by
  have h := splitlines_flat L [] hL
  rw [show splitlines ([] : Str) = [] from rfl] at h
  simp only [List.append_nil] at h
  exact h

theorem headD_eq_getD (l : List Str) : l.headD [] = l.getD 0 [] := by
  cases l <;> rfl

theorem tail_getD (l : List Str) (n : Nat) : l.tail.getD n [] = l.getD (n + 1) [] := by
  cases l <;> rfl

theorem takeHeads_eq : ∀ (its : List (List Str)), (∀ it ∈ its, it ≠ []) →
    takeHeads its = some (its.map (fun it => it.headD []), its.map List.tail) := by
  intro its
  induction its with
  | nil => intro _; rfl
  | cons it rest ih =>
    intro h
    cases hit : it with
    | nil => exact absurd hit (h it (List.mem_cons_self it rest))
    | cons l ls =>
      subst hit
      rw [takeHeads, ih (fun it' h' => h it' (List.mem_cons_of_mem _ h'))]
      rfl

/-- Unrolling the `Row.__str__` loop: when every cell's line iterator
holds exactly `height` lines, line `x` of the row joins the cells'
`x`-th lines with the divider glyph sequence. -/
theorem rowLoop_eq (chars : List Str) : ∀ (hgt : Nat) (its : List (List Str)),
    (∀ it ∈ its, it.length = hgt) →
    rowLoop chars hgt its = some (((List.range hgt).map (fun x =>
      iter_join (its.map (fun it => it.getD x [])) chars ++ ['\n'])).flatten) := by
  intro hgt
  induction hgt with
  | zero => intro its _; rfl
  | succ n ih =>
    intro its hlen
    have hne : ∀ it ∈ its, it ≠ [] := by
      intro it h' e
      have := hlen it h'
      rw [e] at this
      simp at this
    rw [rowLoop, takeHeads_eq its hne]
    have htl : ∀ it ∈ its.map List.tail, it.length = n := by
      intro it hit
      obtain ⟨it0, h0, rfl⟩ := List.mem_map.mp hit
      have := hlen it0 h0
      simp [List.length_tail, this]
    rw [Option.some_bind, ih (its.map List.tail) htl]
    rw [List.range_succ_eq_map]
    simp only [List.map_cons, List.flatten_cons, List.map_map, Option.map_some']
    have hhead : its.map (fun it => it.headD []) = its.map (fun it => it.getD 0 []) :=
      List.map_congr_left (fun it _ => headD_eq_getD it)
    rw [hhead]
    have hrest : (List.range n).map
        (fun x => iter_join (its.map ((fun it => it.getD x []) ∘ List.tail)) chars ++ ['\n']) =
        (List.range n).map
          ((fun x => iter_join (its.map (fun it => it.getD x [])) chars ++ ['\n']) ∘ Nat.succ) := by
      apply List.map_congr_left
      intro x _
      simp only [Function.comp_apply]
      congr 2
      apply List.map_congr_left
      intro it _
      simp only [Function.comp_apply]
      exact tail_getD it x
    rw [hrest]

theorem cellStrs_map (cells : List Cell) (F : Cell → Str)
    (h : ∀ c ∈ cells, Cell.str c = some (F c)) : cellStrs cells = some (cells.map F) := by
  induction cells with
  | nil => rfl
  | cons c cs ih =>
    rw [cellStrs, h c (List.mem_cons_self c cs),
      ih (fun c' h' => h c' (List.mem_cons_of_mem _ h'))]
    rfl

theorem render_rows_map (rows : List Row) (F : Row → Str)
    (h : ∀ r ∈ rows, Row.str r = some (F r)) : render_rows rows = some (rows.map F) := by
  induction rows with
  | nil => rfl
  | cons r rs ih =>
    rw [render_rows, h r (List.mem_cons_self r rs),
      ih (fun r' h' => h r' (List.mem_cons_of_mem _ h'))]
    rfl

theorem content_str_lines (s : Str) : ∀ l' ∈ splitlines (Content.mk s).str,
    l'.length = (Content.mk s).get_width ∧ '\n' ∉ l' := by
  rw [content_str_splitlines]
  intro l' hl'
  obtain ⟨l, hl, rfl⟩ := List.mem_map.mp hl'
  constructor
  · have := le_get_width s l hl
    simp only [List.length_append, List.length_replicate]
    omega
  · intro hmem
    rcases List.mem_append.mp hmem with h' | h'
    · exact mem_splitlines_no_nl s l hl h'
    · exact absurd (List.eq_of_mem_replicate h') (by decide)

/-- A list of `h_pad` rows is a block of newline-terminated lines of
uniform length `W`. -/
theorem hpad_block (W : Nat) (hA : ℚ) (f : Char) (h0 : 0 ≤ hA) (h1 : hA ≤ 1) (hf : f ≠ '\n')
    (ts : List Str) (hts : ∀ t ∈ ts, t.length ≤ W ∧ '\n' ∉ t) :
    ∃ L : List Str,
      (ts.map (fun t => h_pad t W hA f)).flatten = (L.map (fun l => l ++ ['\n'])).flatten ∧
      L.length = ts.length ∧ ∀ l ∈ L, l.length = W ∧ '\n' ∉ l := by
  induction ts with
  | nil => exact ⟨[], rfl, rfl, by simp⟩
  | cons t ts ih =>
    obtain ⟨ht1, ht2⟩ := hts t (List.mem_cons_self t ts)
    obtain ⟨B, hB, hBl, hBn⟩ := h_pad_line t W hA f ht1 h0 h1 hf ht2
    obtain ⟨L, hL, hLl, hLp⟩ := ih (fun t' h' => hts t' (List.mem_cons_of_mem _ h'))
    refine ⟨B :: L, ?_, by simp [hLl], ?_⟩
    · simp only [List.map_cons, List.flatten_cons, hB, hL]
    · intro l hl
      rcases List.mem_cons.mp hl with rfl | h'
      · exact ⟨hBl, hBn⟩
      · exact hLp l h'

/-- Any table-pipeline cell (default format, well-behaved content, width
at least the content width) renders as exactly `height` newline-ended
lines of exactly `width` characters. -/
theorem cell_block (c : Cell) (hfmt : c.fmt = {})
    (hlast : c.content.text.getLast? ≠ some '\n')
    (hw : c.content.get_width ≤ c.width) :
    ∃ L : List Str, Cell.str c = some ((L.map (fun l => l ++ ['\n'])).flatten) ∧
      L.length = c.height ∧ ∀ l ∈ L, l.length = c.width ∧ '\n' ∉ l := by
  have hl : (splitlines c.content.str).length = c.content.get_height := by
    have := content_lines_length c.content.text hlast
    exact this
  have hrep := cell_str_repr c (print_bounds c hl)
  have hmm : ((List.range c.height).map (fun x =>
      h_pad (if c.print_start.toNat ≤ x ∧ x < c.print_stop.toNat then
          (splitlines c.content.str).getD (x - c.print_start.toNat) []
        else []) c.width c.fmt.h_align c.fmt.fill)) =
      (((List.range c.height).map (fun x =>
        if c.print_start.toNat ≤ x ∧ x < c.print_stop.toNat then
          (splitlines c.content.str).getD (x - c.print_start.toNat) []
        else [])).map (fun t => h_pad t c.width c.fmt.h_align c.fmt.fill)) := by
    rw [List.map_map]
    rfl
  have hts : ∀ t ∈ (List.range c.height).map (fun x =>
      if c.print_start.toNat ≤ x ∧ x < c.print_stop.toNat then
        (splitlines c.content.str).getD (x - c.print_start.toNat) []
      else []), t.length ≤ c.width ∧ '\n' ∉ t := by
    intro t ht
    obtain ⟨x, _, rfl⟩ := List.mem_map.mp ht
    by_cases hx : c.print_start.toNat ≤ x ∧ x < c.print_stop.toNat
    · rw [if_pos hx]
      by_cases hlt : x - c.print_start.toNat < (splitlines c.content.str).length
      · have hmem : (splitlines c.content.str).getD (x - c.print_start.toNat) [] ∈
            splitlines c.content.str := by
          rw [List.getD_eq_getElem _ _ hlt]
          exact List.getElem_mem hlt
        have := content_str_lines c.content.text _ hmem
        exact ⟨le_trans (le_of_eq this.1) hw, this.2⟩
      · rw [List.getD_eq_default _ _ (le_of_not_lt hlt)]
        exact ⟨Nat.zero_le _, by simp⟩
    · rw [if_neg hx]
      exact ⟨Nat.zero_le _, by simp⟩
  have h0 : (0 : ℚ) ≤ c.fmt.h_align := by rw [hfmt]; norm_num
  have h1 : c.fmt.h_align ≤ 1 := by rw [hfmt]; norm_num
  have hfne : c.fmt.fill ≠ '\n' := by rw [hfmt]; decide
  obtain ⟨L, hLflat, hLlen, hLp⟩ := hpad_block c.width c.fmt.h_align c.fmt.fill h0 h1 hfne
    ((List.range c.height).map (fun x =>
      if c.print_start.toNat ≤ x ∧ x < c.print_stop.toNat then
        (splitlines c.content.str).getD (x - c.print_start.toNat) []
      else [])) hts
  refine ⟨L, ?_, ?_, hLp⟩
  · rw [hrep, hmm, hLflat]
  · rw [hLlen]
    simp

theorem chars_length (d : Divider) (n : Nat) : (d.chars n).length = n := by
  simp [Divider.chars]

theorem chars_mem (d : Divider) (n : Nat) : ∀ g ∈ d.chars n, g = d.char ∨ g = d.default := by
  intro g hg
  simp only [Divider.chars] at hg
  obtain ⟨i, _, rfl⟩ := List.mem_map.mp hg
  by_cases h : (d.slices.norm n).1 ≤ i ∧ i < (d.slices.norm n).2
  · rw [if_pos h]; exact Or.inl rfl
  · rw [if_neg h]; exact Or.inr rfl

theorem char_return_cases (t : TableDecoration) (x y nch : Char) :
    t.char_return x y nch = t.mid_bord.mid ∨ t.char_return x y nch = t.h_div.char ∨
      t.char_return x y nch = t.v_div.char ∨ t.char_return x y nch = nch := by
  unfold TableDecoration.char_return
  split_ifs <;> simp

theorem singleton_map_length_sum (l : List Char) :
    ((l.map (fun c => ([c] : Str))).map List.length).sum = l.length := by
  rw [List.map_map]
  induction l with
  | nil => rfl
  | cons c cs ih =>
    rw [List.map_cons, List.sum_cons, ih]
    show 1 + cs.length = (c :: cs).length
    rw [List.length_cons]
    omega

/-- Any table-pipeline row (nonempty cells of one shared height whose
rendering is a block) renders as exactly `height` newline-ended lines,
each as wide as the cells plus one glyph per interior gap. -/
theorem row_block (cells : List Cell) (dv : Divider) (hgt : Nat)
    (hne : cells ≠ [])
    (hh : ∀ c ∈ cells, c.height = hgt)
    (hblk : ∀ c ∈ cells, ∃ L : List Str,
      Cell.str c = some ((L.map (fun l => l ++ ['\n'])).flatten) ∧
      L.length = hgt ∧ ∀ l ∈ L, l.length = c.width ∧ '\n' ∉ l) :
    ∃ M : List Str, Row.str ⟨cells, dv⟩ = some ((M.map (fun l => l ++ ['\n'])).flatten) ∧
      M.length = hgt ∧
      (∀ line ∈ M, line.length = (cells.map Cell.width).sum + (cells.length - 1)) ∧
      ((dv.char ≠ '\n' ∧ dv.default ≠ '\n') → ∀ line ∈ M, '\n' ∉ line) := by
  have hF : ∀ c ∈ cells, Cell.str c = some ((Cell.str c).getD []) := by
    intro c hc
    obtain ⟨L, hL, _, _⟩ := hblk c hc
    rw [hL]
    rfl
  have hsplit : ∀ c ∈ cells, ∃ L : List Str,
      splitlines ((Cell.str c).getD []) = L ∧ L.length = hgt ∧
      ∀ l ∈ L, l.length = c.width ∧ '\n' ∉ l := by
    intro c hc
    obtain ⟨L, hL, hLl, hLp⟩ := hblk c hc
    refine ⟨L, ?_, hLl, hLp⟩
    rw [hL]
    exact splitlines_flatten L (fun l hl => (hLp l hl).2)
  cases cells with
  | nil => exact absurd rfl hne
  | cons c0 cs =>
    have hh0 : c0.height = hgt := hh c0 (List.mem_cons_self c0 cs)
    have hits : ∀ it ∈ ((c0 :: cs).map (fun c => (Cell.str c).getD [])).map splitlines,
        it.length = hgt := by
      intro it hit
      rw [List.map_map] at hit
      obtain ⟨c, hc, rfl⟩ := List.mem_map.mp hit
      obtain ⟨L, hL, hLl, _⟩ := hsplit c hc
      simp only [Function.comp_apply]
      rw [hL]
      exact hLl
    unfold Row.str
    simp only [List.head?_cons]
    rw [cellStrs_map (c0 :: cs) (fun c => (Cell.str c).getD []) hF]
    simp only
    rw [hh0, rowLoop_eq _ hgt _ hits]
    refine ⟨(List.range hgt).map (fun x =>
      iter_join ((((c0 :: cs).map (fun c => (Cell.str c).getD [])).map splitlines).map
        (fun it => it.getD x []))
        ((dv.chars ((c0 :: cs).length - 1)).map (fun ch => ([ch] : Str)))), ?_, by simp, ?_, ?_⟩
    · exact congrArg some (congrArg List.flatten (List.map_map (fun l => l ++ ['\n'])
        (fun x => iter_join ((((c0 :: cs).map (fun c => (Cell.str c).getD [])).map
            splitlines).map (fun it => it.getD x []))
          ((dv.chars ((c0 :: cs).length - 1)).map (fun ch => ([ch] : Str))))
        (List.range hgt)).symm)
    · intro line hline
      obtain ⟨x, hx, rfl⟩ := List.mem_map.mp hline
      have hxr : x < hgt := List.mem_range.mp hx
      rw [iter_join_length]
      have hparts : (((((c0 :: cs).map (fun c => (Cell.str c).getD [])).map splitlines).map
          (fun it => it.getD x [])).map List.length) = (c0 :: cs).map Cell.width := by
        simp only [List.map_map]
        apply List.map_congr_left
        intro c hc
        simp only [Function.comp_apply]
        obtain ⟨L, hL, hLl, hLp⟩ := hsplit c hc
        rw [hL]
        have hlt : x < L.length := by rw [hLl]; exact hxr
        rw [List.getD_eq_getElem _ _ hlt]
        exact (hLp _ (List.getElem_mem hlt)).1
      rw [hparts]
      congr 1
      rw [singleton_map_length_sum, chars_length]
    · intro hdv line hline hmem
      obtain ⟨x, hx, rfl⟩ := List.mem_map.mp hline
      have hxr : x < hgt := List.mem_range.mp hx
      rcases mem_iter_join _ _ _ hmem with ⟨part, hpart, hin⟩ | ⟨g, hg, hin⟩
      · obtain ⟨it, hit, rfl⟩ := List.mem_map.mp hpart
        rw [List.map_map] at hit
        obtain ⟨c, hc, rfl⟩ := List.mem_map.mp hit
        simp only [Function.comp_apply] at hin
        obtain ⟨L, hL, hLl, hLp⟩ := hsplit c hc
        rw [hL] at hin
        have hlt : x < L.length := by rw [hLl]; exact hxr
        rw [List.getD_eq_getElem _ _ hlt] at hin
        exact (hLp _ (List.getElem_mem hlt)).2 hin
      · obtain ⟨ch, hch, rfl⟩ := List.mem_map.mp hg
        have heq : '\n' = ch := List.mem_singleton.mp hin
        subst heq
        rcases chars_mem dv _ '\n' hch with h' | h'
        · exact hdv.1 h'.symm
        · exact hdv.2 h'.symm

/-- The horizontal divider lines are a block of newline-ended lines of
the table width, `rowCount − 1` of them. -/
theorem div_block (t : TableDecoration) (widths : List Nat) (n : Nat) :
    ∃ D : List Str, t.div_lines widths n = D.map (fun l => l ++ ['\n']) ∧
      D.length = n - 1 ∧
      (∀ line ∈ D, line.length = widths.sum + (widths.length - 1)) ∧
      ((t.h_div.char ≠ '\n' ∧ t.h_div.default ≠ '\n' ∧ t.v_div.char ≠ '\n' ∧
          t.v_div.default ≠ '\n' ∧ t.mid_bord.mid ≠ '\n') →
        ∀ line ∈ D, '\n' ∉ line) := by
  refine ⟨((t.h_div.chars (n - 1)).zip (t.joints (n - 1) (widths.length - 1))).map (fun p =>
    iter_join (widths.map (fun w => List.replicate w p.1)) (p.2.map (fun c => ([c] : Str)))),
    ?_, ?_, ?_, ?_⟩
  · unfold TableDecoration.div_lines
    rw [List.map_map]
    rfl
  · rw [List.length_map, List.length_zip, chars_length]
    unfold TableDecoration.joints
    rw [List.length_map, chars_length]
    simp
  · intro line hline
    obtain ⟨p, hp, rfl⟩ := List.mem_map.mp hline
    rw [iter_join_length]
    have hruns : ((widths.map (fun w => List.replicate w p.1)).map List.length) = widths := by
      rw [List.map_map]
      have hid : (List.length ∘ fun w => List.replicate w p.1) = id := by
        funext w
        simp
      rw [hid, List.map_id]
    rw [hruns, singleton_map_length_sum]
    have hp2 : p.2 ∈ t.joints (n - 1) (widths.length - 1) := (List.of_mem_zip hp).2
    unfold TableDecoration.joints at hp2
    obtain ⟨x, hx, hEq⟩ := List.mem_map.mp hp2
    rw [← hEq, List.length_map, chars_length]
  · intro hg line hline hmem
    obtain ⟨p, hp, rfl⟩ := List.mem_map.mp hline
    rcases mem_iter_join _ _ _ hmem with ⟨part, hpart, hin⟩ | ⟨g, hgj, hin⟩
    · obtain ⟨w, _, rfl⟩ := List.mem_map.mp hpart
      have hpe : '\n' = p.1 := List.eq_of_mem_replicate hin
      have hp1 : p.1 ∈ t.h_div.chars (n - 1) := (List.of_mem_zip hp).1
      rcases chars_mem t.h_div _ _ hp1 with h' | h'
      · exact hg.1 (hpe.trans h').symm
      · exact hg.2.1 (hpe.trans h').symm
    · obtain ⟨ch, hch, rfl⟩ := List.mem_map.mp hgj
      have heq : '\n' = ch := List.mem_singleton.mp hin
      subst heq
      have hp2 : p.2 ∈ t.joints (n - 1) (widths.length - 1) := (List.of_mem_zip hp).2
      unfold TableDecoration.joints at hp2
      obtain ⟨x, hx, hEq⟩ := List.mem_map.mp hp2
      rw [← hEq] at hch
      obtain ⟨y, hy, hcr⟩ := List.mem_map.mp hch
      rcases char_return_cases t x y ' ' with h' | h' | h' | h'
      · exact hg.2.2.2.2 (h'.symm.trans hcr)
      · exact hg.1 (h'.symm.trans hcr)
      · exact hg.2.2.1 (h'.symm.trans hcr)
      · exact absurd (h'.symm.trans hcr) (by decide)

/-- `get_row_heights` on a grid of nonempty rows succeeds and computes
each row's maximum content height. -/
theorem get_row_heights_eq (contents : List (List Content))
    (h : ∀ row ∈ contents, row ≠ []) :
    get_row_heights contents =
      some (contents.map (fun row => (row.map Content.get_height).foldr max 0)) := by
  induction contents with
  | nil => rfl
  | cons row rest ih =>
    cases hrow : row with
    | nil => exact absurd hrow (h row (List.mem_cons_self row rest))
    | cons cnt cs =>
      subst hrow
      rw [get_row_heights]
      simp only [List.map_cons]
      rw [ih (fun row' h' => h row' (List.mem_cons_of_mem _ h'))]
      simp only [List.map_cons]
      congr 2
      rw [foldl_max_eq, List.foldr_cons]

theorem get_rows_map (v_div : Divider) (widths : List Nat)
    (rowH : List Content → Nat) (contents : List (List Content)) :
    get_rows v_div (contents.map rowH) contents widths =
      contents.map (fun row => Row.mk (build_cells (rowH row) widths row) v_div) := by
  unfold get_rows
  induction contents with
  | nil => rfl
  | cons row rest ih =>
    simp only [List.map_cons, List.zip_cons_cons] at ih ⊢
    rw [ih]

theorem build_cells_widths (hgt : Nat) : ∀ (ws : List Nat) (row : List Content),
    (build_cells hgt ws row).map Cell.width = ws := by
  intro ws
  induction ws with
  | nil => intro row; rfl
  | cons w ws ih => intro row; cases row <;> simp [build_cells, ih]

theorem build_cells_forall (hgt : Nat) (ws : List Nat) (row : List Content) (P : Cell → Prop)
    (hP : ∀ i : Nat, i < ws.length →
      P (Cell.mk (row.getD i (Content.mk [])) hgt (ws.getD i 0) {})) :
    ∀ cl ∈ build_cells hgt ws row, P cl := by
  intro cl hcl
  obtain ⟨i, hi, hEq⟩ := List.mem_iff_getElem.mp hcl
  have hlen : i < ws.length := by
    rw [build_cells_length hgt ws row] at hi
    exact hi
  have hsome : (build_cells hgt ws row).get? i =
      some (Cell.mk (row.getD i (Content.mk [])) hgt (ws.getD i 0) {}) :=
    build_cells_get hgt ws row i hlen
  rw [List.get?_eq_getElem?, List.getElem?_eq_getElem hi] at hsome
  have hcell := Option.some.inj hsome
  rw [← hEq, hcell]
  exact hP i hlen

/-- Every line of `splitlines (removesuffix-newline block)` is one of the
block's lines. -/
theorem splitlines_rmNL (L : List Str) (hL : ∀ l ∈ L, '\n' ∉ l) :
    ∀ line ∈ splitlines (removesuffixNL ((L.map (fun l => l ++ ['\n'])).flatten)), line ∈ L := by
  induction L using List.reverseRecOn with
  | nil =>
    intro line h
    simp [removesuffixNL, splitlines] at h
  | append_singleton M z _ =>
    intro line hline
    have hM : ∀ l ∈ M, '\n' ∉ l := fun l h => hL l (List.mem_append_left _ h)
    have hz : '\n' ∉ z := hL z (List.mem_append_right _ (List.mem_singleton_self z))
    have hflat : (((M ++ [z]).map (fun l => l ++ ['\n'])).flatten) =
        ((M.map (fun l => l ++ ['\n'])).flatten ++ z) ++ ['\n'] := by
      simp [List.map_append, List.flatten_append, List.append_assoc]
    rw [hflat] at hline
    have hrm : removesuffixNL (((M.map (fun l => l ++ ['\n'])).flatten ++ z) ++ ['\n']) =
        (M.map (fun l => l ++ ['\n'])).flatten ++ z := by
      unfold removesuffixNL
      rw [if_pos (List.getLast?_concat _), List.dropLast_concat]
    rw [hrm, splitlines_flat M z hM] at hline
    rcases List.mem_append.mp hline with h | h
    · exact List.mem_append_left _ h
    · rw [splitlines_of_no_nl z hz] at h
      by_cases hz0 : z = []
      · rw [if_pos hz0] at h
        cases h
      · rw [if_neg hz0] at h
        rcases List.mem_singleton.mp h with rfl
        exact List.mem_append_right _ (List.mem_singleton_self _)

/-- Master rendering lemma: on a nonempty grid of nonempty rows whose
strings do not end in a newline, `str(Table)` succeeds and its output is
a newline-joined block of lines, each of width
`sum(columnWidths) + (numColumns − 1)` — one glyph per interior column
gap, whether the vertical divider is active there or not. -/
theorem tableStr_block (data : List (List Str)) (deco : TableDecoration)
    (hne : data ≠ [])
    (hrows : ∀ row ∈ data, row ≠ [])
    (hlast : ∀ row ∈ data, ∀ s ∈ row, s.getLast? ≠ some '\n') :
    ∃ A : List Str,
      tableStr data deco = some (removesuffixNL ((A.map (fun l => l ++ ['\n'])).flatten)) ∧
      (∀ line ∈ A, line.length =
        (get_col_widths (get_content data)).sum +
          ((get_col_widths (get_content data)).length - 1)) ∧
      ((deco.v_div.char ≠ '\n' ∧ deco.v_div.default ≠ '\n' ∧ deco.h_div.char ≠ '\n' ∧
          deco.h_div.default ≠ '\n' ∧ deco.mid_bord.mid ≠ '\n') →
        ∀ line ∈ A, '\n' ∉ line) := by
  have hcne : ∀ row ∈ get_content data, row ≠ [] := by
    intro row hr
    obtain ⟨r, hr0, rfl⟩ := List.mem_map.mp hr
    intro e
    exact hrows r hr0 (List.map_eq_nil_iff.mp e)
  have hcwpos : 1 ≤ (get_col_widths (get_content data)).length := by
    obtain ⟨r, hr0⟩ := List.exists_mem_of_ne_nil data hne
    have hmem : r.map Content.mk ∈ get_content data := List.mem_map_of_mem _ hr0
    have h1 : 1 ≤ (r.map Content.mk).length := by
      have hr := hrows r hr0
      cases r with
      | nil => exact absurd rfl hr
      | cons a b => simp
    exact le_trans h1 (row_length_le _ _ hmem)
  -- facts about each built row
  have hrowblk : ∀ row ∈ get_content data, ∃ M : List Str,
      Row.str (Row.mk (build_cells ((row.map Content.get_height).foldr max 0)
          (get_col_widths (get_content data)) row) deco.v_div) =
        some ((M.map (fun l => l ++ ['\n'])).flatten) ∧
      (∀ line ∈ M, line.length =
        (get_col_widths (get_content data)).sum +
          ((get_col_widths (get_content data)).length - 1)) ∧
      ((deco.v_div.char ≠ '\n' ∧ deco.v_div.default ≠ '\n') → ∀ line ∈ M, '\n' ∉ line) := by
    intro row hrow
    have hcells_len : (build_cells ((row.map Content.get_height).foldr max 0)
        (get_col_widths (get_content data)) row).length =
        (get_col_widths (get_content data)).length :=
      build_cells_length _ _ _
    have hcne' : build_cells ((row.map Content.get_height).foldr max 0)
        (get_col_widths (get_content data)) row ≠ [] := by
      intro e
      rw [e] at hcells_len
      simp at hcells_len
      omega
    have hh : ∀ c ∈ build_cells ((row.map Content.get_height).foldr max 0)
        (get_col_widths (get_content data)) row,
        c.height = (row.map Content.get_height).foldr max 0 :=
      build_cells_forall _ _ _ _ (fun i _ => rfl)
    have hblk : ∀ c ∈ build_cells ((row.map Content.get_height).foldr max 0)
        (get_col_widths (get_content data)) row, ∃ L : List Str,
        Cell.str c = some ((L.map (fun l => l ++ ['\n'])).flatten) ∧
        L.length = (row.map Content.get_height).foldr max 0 ∧
        ∀ l ∈ L, l.length = c.width ∧ '\n' ∉ l := by
      apply build_cells_forall
      intro i hi
      have hlast' : ((row.getD i (Content.mk [])).text : Str).getLast? ≠ some '\n' := by
        by_cases hilt : i < row.length
        · have hmem : row.getD i (Content.mk []) ∈ row := by
            rw [List.getD_eq_getElem _ _ hilt]
            exact List.getElem_mem hilt
          obtain ⟨r, hr0, rfl⟩ := List.mem_map.mp hrow
          obtain ⟨str0, hstr0, hEq⟩ := List.mem_map.mp hmem
          rw [← hEq]
          exact hlast r hr0 str0 hstr0
        · rw [List.getD_eq_default _ _ (le_of_not_lt hilt)]
          simp
      have hw' : (row.getD i (Content.mk [])).get_width ≤
          (get_col_widths (get_content data)).getD i 0 := by
        by_cases hilt : i < row.length
        · have hstep : (row.getD i (Content.mk [])).get_width =
              (row.map Content.get_width).getD i 0 := by
            have hilt' : i < (row.map Content.get_width).length := by
              rw [List.length_map]
              exact hilt
            rw [List.getD_eq_getElem _ _ hilt, List.getD_eq_getElem _ _ hilt']
            simp
          rw [hstep]
          exact content_width_le _ row i hrow
        · rw [List.getD_eq_default _ _ (le_of_not_lt hilt)]
          exact Nat.zero_le _
      obtain ⟨L, hL1, hL2, hL3⟩ := cell_block
        (Cell.mk (row.getD i (Content.mk []))
          ((row.map Content.get_height).foldr max 0)
          ((get_col_widths (get_content data)).getD i 0) {}) rfl hlast' hw'
      exact ⟨L, hL1, hL2, hL3⟩
    obtain ⟨M, hM1, hM2, hM3, hM4⟩ := row_block _ deco.v_div _ hcne' hh hblk
    refine ⟨M, hM1, ?_, hM4⟩
    intro line hl
    rw [hM3 line hl, build_cells_widths, hcells_len]
  -- assemble
  simp only [tableStr]
  rw [get_row_heights_eq _ hcne, Option.some_bind]
  rw [get_rows_map]
  have hF : ∀ r ∈ (get_content data).map (fun row =>
      Row.mk (build_cells ((row.map Content.get_height).foldr max 0)
        (get_col_widths (get_content data)) row) deco.v_div),
      Row.str r = some ((Row.str r).getD []) := by
    intro r hr
    obtain ⟨row, hrow, rfl⟩ := List.mem_map.mp hr
    obtain ⟨M, hM1, _, _⟩ := hrowblk row hrow
    rw [hM1]
    rfl
  rw [render_rows_map _ (fun r => (Row.str r).getD []) hF, Option.some_bind]
  obtain ⟨D, hD, _, hDw, hDn⟩ := div_block deco (get_col_widths (get_content data))
    (get_content data).length
  have hxs : ∀ x ∈ ((get_content data).map (fun row =>
      Row.mk (build_cells ((row.map Content.get_height).foldr max 0)
        (get_col_widths (get_content data)) row) deco.v_div)).map
      (fun r => (Row.str r).getD []),
      ∃ L : List Str, x = (L.map (fun l => l ++ ['\n'])).flatten ∧
        ∀ l ∈ L, l.length = (get_col_widths (get_content data)).sum +
            ((get_col_widths (get_content data)).length - 1) ∧
          ((deco.v_div.char ≠ '\n' ∧ deco.v_div.default ≠ '\n' ∧ deco.h_div.char ≠ '\n' ∧
            deco.h_div.default ≠ '\n' ∧ deco.mid_bord.mid ≠ '\n') → '\n' ∉ l) := by
    intro x hx
    rw [List.map_map] at hx
    obtain ⟨row, hrow, rfl⟩ := List.mem_map.mp hx
    obtain ⟨M, hM1, hM2, hM3⟩ := hrowblk row hrow
    simp only [Function.comp_apply]
    refine ⟨M, by rw [hM1]; rfl, ?_⟩
    intro l hl
    exact ⟨hM2 l hl, fun hg => hM3 ⟨hg.1, hg.2.1⟩ l hl⟩
  have hys : ∀ y ∈ deco.div_lines (get_col_widths (get_content data)) (get_content data).length,
      ∃ L : List Str, y = (L.map (fun l => l ++ ['\n'])).flatten ∧
        ∀ l ∈ L, l.length = (get_col_widths (get_content data)).sum +
            ((get_col_widths (get_content data)).length - 1) ∧
          ((deco.v_div.char ≠ '\n' ∧ deco.v_div.default ≠ '\n' ∧ deco.h_div.char ≠ '\n' ∧
            deco.h_div.default ≠ '\n' ∧ deco.mid_bord.mid ≠ '\n') → '\n' ∉ l) := by
    intro y hy
    rw [hD] at hy
    obtain ⟨d, hd, rfl⟩ := List.mem_map.mp hy
    refine ⟨[d], by simp, ?_⟩
    intro l hl
    rcases List.mem_singleton.mp hl with rfl
    refine ⟨hDw l hd, fun hg => hDn ⟨hg.2.2.1, hg.2.2.2.1, hg.1, hg.2.1, hg.2.2.2.2⟩ l hd⟩
  obtain ⟨A, hA, hAP⟩ := iter_join_blocks
    (fun line => line.length = (get_col_widths (get_content data)).sum +
        ((get_col_widths (get_content data)).length - 1) ∧
      ((deco.v_div.char ≠ '\n' ∧ deco.v_div.default ≠ '\n' ∧ deco.h_div.char ≠ '\n' ∧
        deco.h_div.default ≠ '\n' ∧ deco.mid_bord.mid ≠ '\n') → '\n' ∉ line))
    _ _ hxs hys
  refine ⟨A, ?_, fun line hl => (hAP line hl).1, fun hg line hl => (hAP line hl).2 hg⟩
  rw [hA]

/-! ## Claim C7: uniform line width -/

/-- Evaluation of a two-column table whose vertical divider span is
`slice(1, -1)`, deactivating its only interior gap. -/
theorem c7_table_eval :
    tableStr [[("a".toList), ("b".toList)]]
        { v_div := ⟨'│', ⟨some 1, some (-1)⟩, ' '⟩ } = some ("a b".toList) := by
  norm_num +decide [tableStr, get_content, get_row_heights, get_col_widths, row_upd,
    build_cells, get_rows, render_rows, Row.str, cellStrs, rowLoop, takeHeads, iter_join,
    Cell.str, cellLoop, Cell.print_start, Cell.print_stop, Content.str, Content.get_height,
    Content.get_width, splitlines, pymaxByLen, h_pad, repInt, Divider.chars, PySlice.norm,
    TableDecoration.div_lines, TableDecoration.joints, TableDecoration.char_return,
    removesuffixNL, List.range_succ, List.count_cons, List.count_nil, List.replicate_succ,
    Option.some_bind]

/-- C7, counterexample: with the vertical divider inactive at its single
interior gap, the rendered line `"a b"` has width 3 =
`sum(columnWidths) + 1` (the inactive position still renders its width-1
default glyph), while the claim's `sum(columnWidths) + sum(active
vertical divider glyph widths)` predicts `2 + 0 = 2`. -/
theorem C7_counterexample :
    tableStr [[("a".toList), ("b".toList)]]
        { v_div := ⟨'│', ⟨some 1, some (-1)⟩, ' '⟩ } = some ("a b".toList) ∧
      ("a b".toList : Str).length = 3 ∧ (3 : Nat) ≠ 2 :=
  ⟨c7_table_eval, by decide, by decide⟩

/-- C7, amended: every output line of a rendered table (cell row lines
and horizontal divider lines alike) has the same total width, equal to
`sum(columnWidths) + (numColumns − 1)`: every interior column gap
renders exactly one glyph — the divider glyph where active, the divider's
default glyph where not — so inactive positions still contribute their
width, unlike the claim's sum over active glyphs only.  (Stated for
grids in the faithful domain of the model: nonempty rows, no trailing
newlines, no non-`'\n'` line-break characters, and newline-free
decoration glyphs.) -/
theorem C7_amended (data : List (List Str)) (deco : TableDecoration)
    (hne : data ≠ [])
    (hrows : ∀ row ∈ data, row ≠ [])
    (hlast : ∀ row ∈ data, ∀ s ∈ row, s.getLast? ≠ some '\n')
    (hclean : ∀ row ∈ data, ∀ s ∈ row, ∀ ch ∈ s, otherBreak ch = false)
    (hglyph : deco.v_div.char ≠ '\n' ∧ deco.v_div.default ≠ '\n' ∧ deco.h_div.char ≠ '\n' ∧
      deco.h_div.default ≠ '\n' ∧ deco.mid_bord.mid ≠ '\n') :
    ∃ out : Str, tableStr data deco = some out ∧
      ∀ line ∈ splitlines out,
        line.length = (get_col_widths (get_content data)).sum +
          ((get_col_widths (get_content data)).length - 1) := by
  obtain ⟨A, hA, hAw, hAn⟩ := tableStr_block data deco hne hrows hlast
  refine ⟨_, hA, ?_⟩
  intro line hline
  exact hAw line (splitlines_rmNL A (hAn hglyph) line hline)

/-- C7 witness: the amended theorem on the grid `[["a", "bb"], ["c", "d"]]`
with the default decoration. -/
theorem C7_amended_witness :
    (([[("a".toList), ("bb".toList)], [("c".toList), ("d".toList)]] : List (List Str)) ≠ [] ∧
      (∀ row ∈ ([[("a".toList), ("bb".toList)], [("c".toList), ("d".toList)]] : List (List Str)),
        row ≠ []) ∧
      (∀ row ∈ ([[("a".toList), ("bb".toList)], [("c".toList), ("d".toList)]] : List (List Str)),
        ∀ s ∈ row, s.getLast? ≠ some '\n')) ∧
    ∃ out : Str,
      tableStr [[("a".toList), ("bb".toList)], [("c".toList), ("d".toList)]]
          ({} : TableDecoration) = some out ∧
      ∀ line ∈ splitlines out,
        line.length =
          (get_col_widths (get_content
            [[("a".toList), ("bb".toList)], [("c".toList), ("d".toList)]])).sum +
          ((get_col_widths (get_content
            [[("a".toList), ("bb".toList)], [("c".toList), ("d".toList)]])).length - 1) :=
  ⟨⟨by decide, by decide, by decide⟩,
    C7_amended [[("a".toList), ("bb".toList)], [("c".toList), ("d".toList)]] {}
      (by decide) (by decide) (by decide) (by decide)
      ⟨by decide, by decide, by decide, by decide, by decide⟩⟩

/-! ## Claim C10: rendering totality -/

/-- C10: on a grid that is empty or has every row nonempty, with no
value's string both nonempty and ending in a line break, rendering
succeeds (no modelled exception fires); termination is inherent since
the embedding is a total function. -/
theorem C10_holds (data : List (List Str)) (deco : TableDecoration)
    (hshape : data = [] ∨ ∀ row ∈ data, row ≠ [])
    (hlast : ∀ row ∈ data, ∀ s ∈ row, s.getLast? ≠ some '\n') :
    ∃ out : Str, tableStr data deco = some out := by
  by_cases hd : data = []
  · subst hd
    exact ⟨[], rfl⟩
  · rcases hshape with rfl | hrows
    · exact absurd rfl hd
    · obtain ⟨A, hA, _, _⟩ := tableStr_block data deco hd hrows hlast
      exact ⟨_, hA⟩

/-- C10 witness: the theorem at a concrete 2×2 grid with multi-line
content and the default decoration. -/
theorem C10_holds_witness :
    ((([[("a\nx".toList), ("bb".toList)], [("c".toList), ("d".toList)]] : List (List Str)) = [] ∨
      ∀ row ∈ ([[("a\nx".toList), ("bb".toList)], [("c".toList), ("d".toList)]] : List (List Str)),
        row ≠ []) ∧
      (∀ row ∈ ([[("a\nx".toList), ("bb".toList)], [("c".toList), ("d".toList)]] : List (List Str)),
        ∀ s ∈ row, s.getLast? ≠ some '\n')) ∧
    ∃ out : Str,
      tableStr [[("a\nx".toList), ("bb".toList)], [("c".toList), ("d".toList)]]
        ({} : TableDecoration) = some out :=
  ⟨⟨Or.inr (by decide), by decide⟩,
    C10_holds [[("a\nx".toList), ("bb".toList)], [("c".toList), ("d".toList)]] {}
      (Or.inr (by decide)) (by decide)⟩

end TableThingy
